import Mathlib

/-!
Block allocator and doubly linked sequence.

A shallow embedding of `include/memory.h` (`CustomMemoryResource`) and
`include/list.h` (`Node`, `Iterator`, `DoubleLinkedList`).

* Addresses (`void*`, `Node<T>*`) are natural numbers; a nullable pointer is an
  `Option Nat`, `none` being `nullptr`.
* `size_t` values are natural numbers: the code only compares them (`>=`, `==`),
  it never does arithmetic on them, so no wrap-around can occur.
* Mutation in place is explicit state passing: every operation returns its
  outcome (a value or the exception thrown) together with the state it leaves.
* `::operator new` is outside the repository: its answer is an argument
  (`none` when it throws `std::bad_alloc`, `some a` when it returns address `a`).
-/

namespace OopLab5

/-! ## memory.h -/

/-- Exceptions that leave the two classes: `std::bad_alloc` out of `::operator new`
and the `std::logic_error` thrown by `do_deallocate`. -/
inductive Error where
  | bad_alloc
  | logic_error
deriving DecidableEq, Repr

deriving instance DecidableEq for Except

/-- The struct `CustomMemoryResource::BlockInfo`. -/
structure BlockInfo where
  ptr : Nat
  size : Nat
  is_free : Bool
deriving DecidableEq, Repr

/-- The range-for loop of `do_allocate` (memory.h 17-22) over `blocks`: the list as
the loop leaves it, and `some ptr` when the loop returned `ptr` from inside, `none`
when it ran off the end. -/
def allocScan (bytes : Nat) : List BlockInfo → List BlockInfo × Option Nat
  | [] => ([], none)
  | block :: rest =>
    if block.is_free = true ∧ block.size ≥ bytes then
      ({ block with is_free := false } :: rest, some block.ptr)
    else
      ((block :: (allocScan bytes rest).1), (allocScan bytes rest).2)

/-- The method `CustomMemoryResource::do_allocate` (memory.h 16-26). `sysNew` is what
`::operator new(bytes, std::align_val_t(alignment))` answers if it is called. -/
def do_allocate (blocks : List BlockInfo) (bytes _alignment : Nat) (sysNew : Option Nat) :
    Except Error Nat × List BlockInfo :=
  match allocScan bytes blocks with
  | (blocks1, some p) => (Except.ok p, blocks1)
  | (blocks1, none) =>
    match sysNew with
    | none => (Except.error Error.bad_alloc, blocks1)
    | some ptr => (Except.ok ptr, blocks1 ++ [{ ptr := ptr, size := bytes, is_free := false }])

/-- The range-for loop of `do_deallocate` (memory.h 29-34): the list as the loop
leaves it, and whether the loop returned from inside. -/
def deallocScan (p bytes : Nat) : List BlockInfo → List BlockInfo × Bool
  | [] => ([], false)
  | block :: rest =>
    if block.ptr = p ∧ block.size = bytes then
      ({ block with is_free := true } :: rest, true)
    else
      ((block :: (deallocScan p bytes rest).1), (deallocScan p bytes rest).2)

/-- The method `CustomMemoryResource::do_deallocate` (memory.h 28-36). -/
def do_deallocate (blocks : List BlockInfo) (p bytes _alignment : Nat) :
    Except Error Unit × List BlockInfo :=
  match deallocScan p bytes blocks with
  | (blocks1, true) => (Except.ok (), blocks1)
  | (blocks1, false) => (Except.error Error.logic_error, blocks1)

/-- A record that `do_allocate` may reuse for a request of `bytes` (memory.h 18). -/
def fits (bytes : Nat) (b : BlockInfo) : Prop := b.is_free = true ∧ bytes ≤ b.size

instance (bytes : Nat) (b : BlockInfo) : Decidable (fits bytes b) := by
  unfold fits; infer_instance

/-- A record that `do_deallocate` accepts for `(p, bytes)` (memory.h 30). -/
def matchesBlock (p bytes : Nat) (b : BlockInfo) : Prop := b.ptr = p ∧ b.size = bytes

instance (p bytes : Nat) (b : BlockInfo) : Decidable (matchesBlock p bytes b) := by
  unfold matchesBlock; infer_instance

/-! ## list.h -/

/-- The struct `Node<T>` (list.h 5-11). -/
structure Node (T : Type) where
  value : T
  next : Option Nat
  prev : Option Nat

/-- The memory reached through `Node<T>*`: at each address the node constructed
there, if any. -/
abbrev Heap (T : Type) := Nat → Option (Node T)

/-- Construct (or overwrite) the node at address `p`. -/
def Heap.write {T : Type} (h : Heap T) (p : Nat) (n : Node T) : Heap T :=
  fun q => if q = p then some n else h q

/-- Destroy the node at address `p` (`allocator.destroy`). -/
def Heap.erase {T : Type} (h : Heap T) (p : Nat) : Heap T :=
  fun q => if q = p then none else h q

/-- The store `p->next = q`. A store through a pointer at which no node lives is
undefined behaviour in the source; here it leaves the memory as it is. -/
def Heap.setNext {T : Type} (h : Heap T) (p : Nat) (q : Option Nat) : Heap T :=
  match h p with
  | some n => h.write p { n with next := q }
  | none => h

/-- The store `p->prev = q`, with the same convention as `Heap.setNext`. -/
def Heap.setPrev {T : Type} (h : Heap T) (p : Nat) (q : Option Nat) : Heap T :=
  match h p with
  | some n => h.write p { n with prev := q }
  | none => h

/-- The load `p->next`. A load through a pointer at which no node lives is undefined
behaviour in the source; here it reads `nullptr`. -/
def Heap.getNext {T : Type} (h : Heap T) (p : Nat) : Option Nat :=
  match h p with
  | some n => n.next
  | none => none

/-- The load `p->prev`, with the same convention as `Heap.getNext`. -/
def Heap.getPrev {T : Type} (h : Heap T) (p : Nat) : Option Nat :=
  match h p with
  | some n => n.prev
  | none => none

/-- The class `Iterator<T>` (list.h 13-42): its one member `current`. -/
structure Iterator where
  current : Option Nat
deriving DecidableEq, Repr

/-- The prefix `operator++` (list.h 29-32): `if (current) current = current->next;`. -/
def Iterator.advance {T : Type} (h : Heap T) (it : Iterator) : Iterator :=
  match it.current with
  | some p => { current := h.getNext p }
  | none => it

/-- The `operator*` (list.h 26): `current->value`; `none` where the source has
undefined behaviour (no node under `current`). -/
def Iterator.deref {T : Type} (h : Heap T) (it : Iterator) : Option T :=
  match it.current with
  | some p => (h p).map Node.value
  | none => none

/-- The class `DoubleLinkedList<T>` (list.h 44-91) together with what its members
point into: `resource` is the state of the `CustomMemoryResource` behind `allocator`,
`memory` holds the nodes. -/
structure DoubleLinkedList (T : Type) where
  resource : List BlockInfo
  memory : Heap T
  head : Option Nat
  tail : Option Nat

/-- The constructor (list.h 52-53) on a memory resource in state `resource`. -/
def DoubleLinkedList.new {T : Type} (resource : List BlockInfo) (memory : Heap T) :
    DoubleLinkedList T :=
  { resource := resource, memory := memory, head := none, tail := none }

/-- The method `push_back` (list.h 59-69). `allocator.allocate(1)` asks the resource
for `1 * sizeof(Node<T>)` bytes aligned to `alignof(Node<T>)`; these two constants of
the element type are the arguments `nodeSize` and `nodeAlign`. -/
def DoubleLinkedList.push_back {T : Type} (nodeSize nodeAlign : Nat)
    (l : DoubleLinkedList T) (value : T) (sysNew : Option Nat) :
    Except Error Unit × DoubleLinkedList T :=
  match do_allocate l.resource nodeSize nodeAlign sysNew with
  | (Except.error e, resource1) => (Except.error e, { l with resource := resource1 })
  | (Except.ok newNode, resource1) =>
    let m1 := l.memory.write newNode { value := value, next := none, prev := none }
    match l.tail with
    | none =>
      (Except.ok (),
        { resource := resource1, memory := m1, head := some newNode, tail := some newNode })
    | some t =>
      let m2 := m1.setNext t (some newNode)
      let m3 := m2.setPrev newNode (some t)
      (Except.ok (),
        { resource := resource1, memory := m3, head := l.head, tail := some newNode })

/-- The method `pop_back` (list.h 71-82). The exception of `deallocate` leaves the
method after `tail`, `head` and the links were updated and the node destroyed. -/
def DoubleLinkedList.pop_back {T : Type} (nodeSize nodeAlign : Nat)
    (l : DoubleLinkedList T) : Except Error Unit × DoubleLinkedList T :=
  match l.tail with
  | none => (Except.ok (), l)
  | some temp =>
    let tail1 := l.memory.getPrev temp
    let m1 := match tail1 with
      | some t => l.memory.setNext t none
      | none => l.memory
    let head1 := match tail1 with
      | some _ => l.head
      | none => none
    let m2 := m1.erase temp
    let r := do_deallocate l.resource temp nodeSize nodeAlign
    (r.1, { resource := r.2, memory := m2, head := head1, tail := tail1 })

/-- The method `clear` (list.h 84-88): `while (head) pop_back();`. `fuel` bounds the
number of loop iterations; `none` means the bound was reached with `head` still set. -/
def DoubleLinkedList.clear {T : Type} (nodeSize nodeAlign : Nat) :
    Nat → DoubleLinkedList T → Option (Except Error Unit × DoubleLinkedList T)
  | fuel, l =>
    match l.head with
    | none => some (Except.ok (), l)
    | some _ =>
      match fuel with
      | 0 => none
      | fuel1 + 1 =>
        match l.pop_back nodeSize nodeAlign with
        | (Except.ok (), l1) => DoubleLinkedList.clear nodeSize nodeAlign fuel1 l1
        | (Except.error e, l1) => some (Except.error e, l1)

/-- The method `begin` (list.h 89). -/
def DoubleLinkedList.begin {T : Type} (l : DoubleLinkedList T) : Iterator :=
  { current := l.head }

/-- The method `end` (list.h 90). -/
def DoubleLinkedList.end_ {T : Type} (_l : DoubleLinkedList T) : Iterator :=
  { current := none }

/-- A run of `push_back` calls, one per entry, in order, as in the loops of the tests:
each entry is the value and the answer of the underlying system for that call. The
run stops at the first exception. -/
def DoubleLinkedList.push_back_all {T : Type} (nodeSize nodeAlign : Nat) :
    DoubleLinkedList T → List (T × Option Nat) → Except Error Unit × DoubleLinkedList T
  | l, [] => (Except.ok (), l)
  | l, (v, sysNew) :: rest =>
    match l.push_back nodeSize nodeAlign v sysNew with
    | (Except.ok (), l1) => DoubleLinkedList.push_back_all nodeSize nodeAlign l1 rest
    | (Except.error e, l1) => (Except.error e, l1)

/-- Iterating from `it` with `operator*` and `operator++` reads exactly the values
`vs`, in order, and then `it` compares equal to `end()`. -/
def yields {T : Type} (h : Heap T) : Iterator → List T → Prop
  | it, [] => it = { current := none }
  | it, v :: vs =>
    it ≠ { current := none } ∧ it.deref h = some v ∧ yields h (it.advance h) vs

instance yields.decidable {T : Type} [DecidableEq T] (h : Heap T) :
    (it : Iterator) → (vs : List T) → Decidable (yields h it vs)
  | it, [] => inferInstanceAs (Decidable (it = { current := none }))
  | it, v :: vs =>
    have := yields.decidable h (it.advance h) vs
    inferInstanceAs (Decidable (it ≠ { current := none } ∧ it.deref h = some v
      ∧ yields h (it.advance h) vs))

/-- Starting at pointer `cur`, whose predecessor is `prev`, the `next` links run
through exactly the nodes `nodes` (address and value, in order) and end in `nullptr`,
every node pointing back to the one before it. -/
def Chain {T : Type} (h : Heap T) : Option Nat → Option Nat → List (Nat × T) → Prop
  | _, cur, [] => cur = none
  | prev, cur, (p, x) :: rest =>
    cur = some p ∧ ∃ nx, h p = some { value := x, next := nx, prev := prev }
      ∧ Chain h (some p) nx rest

/-- The list `l` is a well-formed chain over the nodes `nodes`, and its nodes are
blocks its memory resource holds as in use: `head` starts the chain, `tail` is its last
node, no address occurs twice in the chain, no address is tracked twice by the
resource, and every node address is that of an in-use record. -/
def WellFormed {T : Type} (l : DoubleLinkedList T) (nodes : List (Nat × T)) : Prop :=
  Chain l.memory none l.head nodes
  ∧ l.tail = (nodes.map Prod.fst).getLast?
  ∧ (nodes.map Prod.fst).Nodup
  ∧ (l.resource.map BlockInfo.ptr).Nodup
  ∧ ∀ p ∈ nodes.map Prod.fst, ∃ b ∈ l.resource, b.ptr = p ∧ b.is_free = false

/-- The `operator==` of `Iterator<T>` (list.h 40): `current == other.current`. -/
def Iterator.op_eq (it other : Iterator) : Bool :=
  it.current == other.current

/-- The `operator!=` of `Iterator<T>` (list.h 41): `current != other.current`. -/
def Iterator.op_ne (it other : Iterator) : Bool :=
  it.current != other.current

/-- The call `pop_back()` made `n` times in a row; the run stops at the first
exception. -/
def DoubleLinkedList.pop_back_n {T : Type} (nodeSize nodeAlign : Nat) :
    Nat → DoubleLinkedList T → Except Error Unit × DoubleLinkedList T
  | 0, l => (Except.ok (), l)
  | n + 1, l =>
    match l.pop_back nodeSize nodeAlign with
    | (Except.ok (), l1) => DoubleLinkedList.pop_back_n nodeSize nodeAlign n l1
    | (Except.error e, l1) => (Except.error e, l1)

/-- One call made on a `CustomMemoryResource`: `allocate(bytes, alignment)`, with the
answer `::operator new` has ready for it, or `deallocate(p, bytes, alignment)`. -/
inductive Op where
  | allocate (bytes alignment : Nat) (sysNew : Option Nat)
  | deallocate (p bytes alignment : Nat)
deriving DecidableEq, Repr

/-- The record list one call leaves, whether the call returns or throws. -/
def step (blocks : List BlockInfo) : Op → List BlockInfo
  | Op.allocate bytes alignment sysNew => (do_allocate blocks bytes alignment sysNew).2
  | Op.deallocate p bytes alignment => (do_deallocate blocks p bytes alignment).2

/-- The record list a sequence of calls leaves. -/
def run : List BlockInfo → List Op → List BlockInfo
  | blocks, [] => blocks
  | blocks, op :: ops => run (step blocks op) ops

/-- The underlying system does not answer a call with an address the allocator still
holds. The allocator releases nothing before its destructor, so it holds every
address it tracks. -/
def sysFresh (blocks : List BlockInfo) : Op → Prop
  | Op.allocate _ _ (some a) => a ∉ blocks.map BlockInfo.ptr
  | _ => True

instance (blocks : List BlockInfo) (op : Op) : Decidable (sysFresh blocks op) := by
  cases op with
  | allocate bytes alignment sysNew =>
    cases sysNew with
    | none => exact isTrue trivial
    | some a => unfold sysFresh; infer_instance
  | deallocate p bytes alignment => exact isTrue trivial

/-- The system behaves as in `sysFresh` at every call of the sequence. -/
def FreshRun : List BlockInfo → List Op → Prop
  | _, [] => True
  | blocks, op :: ops => sysFresh blocks op ∧ FreshRun (step blocks op) ops

instance FreshRun.decidable : (blocks : List BlockInfo) → (ops : List Op) →
    Decidable (FreshRun blocks ops)
  | _, [] => isTrue trivial
  | blocks, op :: ops =>
    have := FreshRun.decidable (step blocks op) ops
    inferInstanceAs (Decidable (sysFresh blocks op ∧ FreshRun (step blocks op) ops))

/-- The number of records of `before` whose free flag differs from the flag of the
record at the same position of `after`. -/
def flagChanges (before after : List BlockInfo) : Nat :=
  ((before.zip after).filter (fun x => x.1.is_free != x.2.is_free)).length

/-- The address and size of a record, without its flag. -/
def BlockInfo.region (b : BlockInfo) : Nat × Nat := (b.ptr, b.size)

/-- The shape of the node graph of `l`, with `addrs` the node addresses from `head` on:
`head` and `tail` are null together exactly when there is no node; `head` is the first
and `tail` the last address; no address occurs twice; a node lives at each address;
`head->prev` and `tail->next` are null; and neighbours point at each other. -/
def ChainShape {T : Type} (l : DoubleLinkedList T) (addrs : List Nat) : Prop :=
  (l.head = none ↔ addrs = []) ∧ (l.tail = none ↔ addrs = [])
  ∧ l.head = addrs.head? ∧ l.tail = addrs.getLast?
  ∧ addrs.Nodup
  ∧ (∀ p ∈ addrs, ∃ n, l.memory p = some n)
  ∧ (∀ p, l.head = some p → l.memory.getPrev p = none)
  ∧ (∀ t, l.tail = some t → l.memory.getNext t = none)
  ∧ (∀ i p q, addrs[i]? = some p → addrs[i + 1]? = some q →
      l.memory.getNext p = some q ∧ l.memory.getPrev q = some p)

/-- A list of `int` as two `push_back` calls leave it on a fresh resource: nodes at
addresses 100 and 200 holding 1 and 2, the node size being 24. -/
def sampleList : DoubleLinkedList Nat :=
  { resource := [BlockInfo.mk 100 24 false, BlockInfo.mk 200 24 false],
    memory := fun q =>
      if q = 100 then some { value := 1, next := some 200, prev := none }
      else if q = 200 then some { value := 2, next := none, prev := some 100 }
      else none,
    head := some 100,
    tail := some 200 }

/-! ## Lemmas on the two scans -/

theorem allocScan_none (bytes : Nat) (blocks : List BlockInfo)
    (h : ∀ x ∈ blocks, ¬ fits bytes x) : allocScan bytes blocks = (blocks, none) := by
  induction blocks with
  | nil => rfl
  | cons b rest ih =>
    have hb : ¬ (b.is_free = true ∧ b.size ≥ bytes) := h b (List.mem_cons_self _ _)
    have hr := ih (fun x hx => h x (List.mem_cons_of_mem _ hx))
    simp only [allocScan, hb, if_false, hr]

theorem allocScan_first (bytes : Nat) (pre : List BlockInfo) (b : BlockInfo)
    (post : List BlockInfo) (hpre : ∀ x ∈ pre, ¬ fits bytes x) (hb : fits bytes b) :
    allocScan bytes (pre ++ b :: post)
      = (pre ++ { b with is_free := false } :: post, some b.ptr) := by
  induction pre with
  | nil =>
    have hb' : b.is_free = true ∧ b.size ≥ bytes := hb
    simp only [List.nil_append, allocScan, hb', and_self, if_true]
  | cons a rest ih =>
    have ha : ¬ (a.is_free = true ∧ a.size ≥ bytes) := hpre a (List.mem_cons_self _ _)
    have hr := ih (fun x hx => hpre x (List.mem_cons_of_mem _ hx))
    simp only [List.cons_append, allocScan, ha, if_false, List.append_eq, hr]

theorem exists_first {α : Type} (P : α → Prop) [DecidablePred P] (l : List α)
    (h : ∃ x ∈ l, P x) :
    ∃ pre b post, l = pre ++ b :: post ∧ (∀ x ∈ pre, ¬ P x) ∧ P b := by
  induction l with
  | nil => obtain ⟨x, hx, _⟩ := h; exact absurd hx (List.not_mem_nil x)
  | cons a rest ih =>
    by_cases ha : P a
    · exact ⟨[], a, rest, rfl, fun x hx => absurd hx (List.not_mem_nil x), ha⟩
    · have h' : ∃ x ∈ rest, P x := by
        obtain ⟨x, hx, hPx⟩ := h
        rcases List.mem_cons.mp hx with rfl | hx
        · exact absurd hPx ha
        · exact ⟨x, hx, hPx⟩
      obtain ⟨pre, b, post, rfl, hpre, hb⟩ := ih h'
      refine ⟨a :: pre, b, post, rfl, ?_, hb⟩
      intro x hx
      rcases List.mem_cons.mp hx with rfl | hx
      · exact ha
      · exact hpre x hx

theorem deallocScan_none (p bytes : Nat) (blocks : List BlockInfo)
    (h : ∀ x ∈ blocks, ¬ matchesBlock p bytes x) :
    deallocScan p bytes blocks = (blocks, false) := by
  induction blocks with
  | nil => rfl
  | cons b rest ih =>
    have hb : ¬ (b.ptr = p ∧ b.size = bytes) := h b (List.mem_cons_self _ _)
    have hr := ih (fun x hx => h x (List.mem_cons_of_mem _ hx))
    simp only [deallocScan, hb, if_false, hr]

theorem deallocScan_first (p bytes : Nat) (pre : List BlockInfo) (b : BlockInfo)
    (post : List BlockInfo) (hpre : ∀ x ∈ pre, ¬ matchesBlock p bytes x)
    (hb : matchesBlock p bytes b) :
    deallocScan p bytes (pre ++ b :: post)
      = (pre ++ { b with is_free := true } :: post, true) := by
  induction pre with
  | nil =>
    have hb' : b.ptr = p ∧ b.size = bytes := hb
    simp only [List.nil_append, deallocScan, hb', and_self, if_true]
  | cons a rest ih =>
    have ha : ¬ (a.ptr = p ∧ a.size = bytes) := hpre a (List.mem_cons_self _ _)
    have hr := ih (fun x hx => hpre x (List.mem_cons_of_mem _ hx))
    simp only [List.cons_append, deallocScan, ha, if_false, List.append_eq, hr]

theorem do_deallocate_found (blocks : List BlockInfo) (p bytes alignment : Nat)
    (h : ∃ x ∈ blocks, x.ptr = p ∧ x.size = bytes) :
    ∃ pre b post, blocks = pre ++ b :: post
      ∧ (∀ x ∈ pre, ¬ (x.ptr = p ∧ x.size = bytes))
      ∧ (b.ptr = p ∧ b.size = bytes)
      ∧ do_deallocate blocks p bytes alignment
          = (Except.ok (), pre ++ { b with is_free := true } :: post) := by
  obtain ⟨pre, b, post, rfl, hpre, hb⟩ := exists_first (matchesBlock p bytes) blocks h
  refine ⟨pre, b, post, rfl, hpre, hb, ?_⟩
  simp only [do_deallocate, deallocScan_first p bytes pre b post hpre hb]

theorem do_deallocate_not_found (blocks : List BlockInfo) (p bytes alignment : Nat)
    (h : ¬ ∃ x ∈ blocks, x.ptr = p ∧ x.size = bytes) :
    do_deallocate blocks p bytes alignment = (Except.error Error.logic_error, blocks) := by
  have hall : ∀ x ∈ blocks, ¬ matchesBlock p bytes x := fun x hx hm => h ⟨x, hx, hm⟩
  simp only [do_deallocate, deallocScan_none p bytes blocks hall]

theorem do_deallocate_error_iff (blocks : List BlockInfo) (p bytes alignment : Nat) :
    (do_deallocate blocks p bytes alignment).1 = Except.error Error.logic_error
      ↔ ¬ ∃ x ∈ blocks, x.ptr = p ∧ x.size = bytes := by
  constructor
  · intro herr hex
    obtain ⟨pre, b, post, _, _, _, hok⟩ := do_deallocate_found blocks p bytes alignment hex
    rw [hok] at herr
    exact absurd herr (by simp)
  · intro hno
    rw [do_deallocate_not_found blocks p bytes alignment hno]

/-! ## Claims on the allocator -/

/-- C1: whenever some tracked record is free with size at least `bytes`, `do_allocate`
returns the address of the first such record in list order, the only change to the
list is that this record becomes in-use, and no record is appended; the answer of
the underlying system plays no part. -/
theorem do_allocate_reuses_first_fit (blocks : List BlockInfo) (bytes alignment : Nat)
    (sysNew : Option Nat) (h : ∃ x ∈ blocks, x.is_free = true ∧ bytes ≤ x.size) :
    ∃ pre b post, blocks = pre ++ b :: post
      ∧ (∀ x ∈ pre, ¬ (x.is_free = true ∧ bytes ≤ x.size))
      ∧ (b.is_free = true ∧ bytes ≤ b.size)
      ∧ do_allocate blocks bytes alignment sysNew
          = (Except.ok b.ptr, pre ++ { b with is_free := false } :: post) := by
  obtain ⟨pre, b, post, rfl, hpre, hb⟩ := exists_first (fits bytes) blocks h
  refine ⟨pre, b, post, rfl, hpre, hb, ?_⟩
  simp only [do_allocate, allocScan_first bytes pre b post hpre hb]

theorem do_allocate_reuses_first_fit_witness :
    (∃ x ∈ [BlockInfo.mk 10 16 true, BlockInfo.mk 20 64 true, BlockInfo.mk 30 64 true],
        x.is_free = true ∧ 32 ≤ x.size)
    ∧ ∃ pre b post,
        [BlockInfo.mk 10 16 true, BlockInfo.mk 20 64 true, BlockInfo.mk 30 64 true]
          = pre ++ b :: post
      ∧ (∀ x ∈ pre, ¬ (x.is_free = true ∧ 32 ≤ x.size))
      ∧ (b.is_free = true ∧ 32 ≤ b.size)
      ∧ do_allocate [BlockInfo.mk 10 16 true, BlockInfo.mk 20 64 true, BlockInfo.mk 30 64 true]
            32 8 none
          = (Except.ok b.ptr, pre ++ { b with is_free := false } :: post) :=
  ⟨by decide,
   do_allocate_reuses_first_fit
     [BlockInfo.mk 10 16 true, BlockInfo.mk 20 64 true, BlockInfo.mk 30 64 true] 32 8 none
     (by decide)⟩

/-- C2: when no tracked record is free with size at least `bytes` and the underlying
system hands out address `a`, `do_allocate` returns `a` and the list afterwards is the
old list, untouched, followed by the one new record `(a, bytes, in-use)`. -/
theorem do_allocate_acquires_when_no_fit (blocks : List BlockInfo) (bytes alignment a : Nat)
    (h : ∀ x ∈ blocks, ¬ (x.is_free = true ∧ bytes ≤ x.size)) :
    do_allocate blocks bytes alignment (some a)
      = (Except.ok a, blocks ++ [{ ptr := a, size := bytes, is_free := false }]) := by
  simp only [do_allocate, allocScan_none bytes blocks h]

theorem do_allocate_acquires_when_no_fit_witness :
    (∀ x ∈ [BlockInfo.mk 10 16 true, BlockInfo.mk 20 64 false],
        ¬ (x.is_free = true ∧ 32 ≤ x.size))
    ∧ do_allocate [BlockInfo.mk 10 16 true, BlockInfo.mk 20 64 false] 32 8 (some 30)
      = (Except.ok 30,
          [BlockInfo.mk 10 16 true, BlockInfo.mk 20 64 false]
            ++ [{ ptr := 30, size := 32, is_free := false }]) :=
  ⟨by decide,
   do_allocate_acquires_when_no_fit [BlockInfo.mk 10 16 true, BlockInfo.mk 20 64 false]
     32 8 30 (by decide)⟩

/-- C3: `do_deallocate` throws `std::logic_error` exactly when no tracked record has
address `p` and size `bytes`; when one exists the call returns normally and the only
change is that the first such record is free afterwards; the alignment argument never
changes outcome or state. -/
theorem do_deallocate_fails_iff_no_match (blocks : List BlockInfo) (p bytes alignment : Nat) :
    ((do_deallocate blocks p bytes alignment).1 = Except.error Error.logic_error
        ↔ ¬ ∃ x ∈ blocks, x.ptr = p ∧ x.size = bytes)
    ∧ ((∃ x ∈ blocks, x.ptr = p ∧ x.size = bytes) →
        ∃ pre b post, blocks = pre ++ b :: post
          ∧ (∀ x ∈ pre, ¬ (x.ptr = p ∧ x.size = bytes))
          ∧ (b.ptr = p ∧ b.size = bytes)
          ∧ do_deallocate blocks p bytes alignment
              = (Except.ok (), pre ++ { b with is_free := true } :: post))
    ∧ (∀ alignment2, do_deallocate blocks p bytes alignment2
          = do_deallocate blocks p bytes alignment) := by
  exact ⟨do_deallocate_error_iff blocks p bytes alignment,
    do_deallocate_found blocks p bytes alignment, fun _ => rfl⟩

theorem do_deallocate_fails_iff_no_match_witness :
    (∃ x ∈ [BlockInfo.mk 10 32 false, BlockInfo.mk 20 64 false], x.ptr = 20 ∧ x.size = 64)
    ∧ ∃ pre b post, [BlockInfo.mk 10 32 false, BlockInfo.mk 20 64 false] = pre ++ b :: post
          ∧ (∀ x ∈ pre, ¬ (x.ptr = 20 ∧ x.size = 64))
          ∧ (b.ptr = 20 ∧ b.size = 64)
          ∧ do_deallocate [BlockInfo.mk 10 32 false, BlockInfo.mk 20 64 false] 20 64 4
              = (Except.ok (), pre ++ { b with is_free := true } :: post) :=
  ⟨by decide,
   (do_deallocate_fails_iff_no_match [BlockInfo.mk 10 32 false, BlockInfo.mk 20 64 false]
      20 64 4).2.1 (by decide)⟩

/-- C4: when `do_deallocate` throws `std::logic_error` the list of records it leaves
is exactly the list it was given, and a following `do_deallocate` of any tracked in-use
record, with that record's own address and size, returns normally. -/
theorem do_deallocate_failure_keeps_state (blocks : List BlockInfo) (p bytes alignment : Nat)
    (h : (do_deallocate blocks p bytes alignment).1 = Except.error Error.logic_error) :
    (do_deallocate blocks p bytes alignment).2 = blocks
    ∧ ∀ b ∈ blocks, b.is_free = false → ∀ alignment2,
        (do_deallocate (do_deallocate blocks p bytes alignment).2 b.ptr b.size alignment2).1
          = Except.ok () := by
  have hno : ¬ ∃ x ∈ blocks, x.ptr = p ∧ x.size = bytes :=
    (do_deallocate_error_iff blocks p bytes alignment).mp h
  have hst : (do_deallocate blocks p bytes alignment).2 = blocks := by
    rw [do_deallocate_not_found blocks p bytes alignment hno]
  refine ⟨hst, ?_⟩
  intro b hb _ alignment2
  rw [hst]
  obtain ⟨pre, c, post, _, _, _, hok⟩ :=
    do_deallocate_found blocks b.ptr b.size alignment2 ⟨b, hb, rfl, rfl⟩
  rw [hok]

theorem do_deallocate_failure_keeps_state_witness :
    (do_deallocate [BlockInfo.mk 10 64 false] 10 128 4).1 = Except.error Error.logic_error
    ∧ (do_deallocate [BlockInfo.mk 10 64 false] 10 128 4).2 = [BlockInfo.mk 10 64 false]
    ∧ ∀ b ∈ [BlockInfo.mk 10 64 false], b.is_free = false → ∀ alignment2,
        (do_deallocate (do_deallocate [BlockInfo.mk 10 64 false] 10 128 4).2
            b.ptr b.size alignment2).1 = Except.ok () :=
  ⟨by decide, do_deallocate_failure_keeps_state [BlockInfo.mk 10 64 false] 10 128 4 (by decide)⟩

/-- C5 as stated fails: on a fresh allocator, after `allocate(64)` returned address 100
and `deallocate(100, 64)` freed it, no in-use record matches `(100, 64)`, yet a second
`deallocate(100, 64)` returns normally. -/
theorem double_free_is_accepted :
    do_allocate [] 64 8 (some 100) = (Except.ok 100, [BlockInfo.mk 100 64 false])
    ∧ do_deallocate [BlockInfo.mk 100 64 false] 100 64 8
        = (Except.ok (), [BlockInfo.mk 100 64 true])
    ∧ (¬ ∃ b ∈ [BlockInfo.mk 100 64 true], b.ptr = 100 ∧ b.size = 64 ∧ b.is_free = false)
    ∧ do_deallocate [BlockInfo.mk 100 64 true] 100 64 8
        = (Except.ok (), [BlockInfo.mk 100 64 true]) := by
  decide

/-- C5, amended: `do_deallocate` never reads the free flag. It returns normally as soon
as some tracked record, free or in use, has address `p` and size `bytes`; and once a
`do_deallocate(p, bytes)` has returned normally, repeating it at once returns normally
again and leaves the list as it is. -/
theorem do_deallocate_ignores_free_flag (blocks : List BlockInfo) (p bytes alignment : Nat) :
    ((∃ b ∈ blocks, b.ptr = p ∧ b.size = bytes) →
        (do_deallocate blocks p bytes alignment).1 = Except.ok ())
    ∧ ((do_deallocate blocks p bytes alignment).1 = Except.ok () →
        ∀ alignment2,
          do_deallocate (do_deallocate blocks p bytes alignment).2 p bytes alignment2
            = (Except.ok (), (do_deallocate blocks p bytes alignment).2)) := by
  constructor
  · intro h
    obtain ⟨pre, b, post, _, _, _, hok⟩ := do_deallocate_found blocks p bytes alignment h
    rw [hok]
  · intro hok alignment2
    by_cases h : ∃ x ∈ blocks, x.ptr = p ∧ x.size = bytes
    · obtain ⟨pre, b, post, hdec, hpre, hb, hres⟩ :=
        do_deallocate_found blocks p bytes alignment h
      rw [hres]
      have hb2 : matchesBlock p bytes { b with is_free := true } := hb
      simp only [do_deallocate,
        deallocScan_first p bytes pre { b with is_free := true } post hpre hb2]
    · rw [do_deallocate_not_found blocks p bytes alignment h] at hok
      exact absurd hok (by simp)

theorem do_deallocate_ignores_free_flag_witness :
    (∃ b ∈ [BlockInfo.mk 100 64 true], b.ptr = 100 ∧ b.size = 64)
    ∧ (do_deallocate [BlockInfo.mk 100 64 true] 100 64 8).1 = Except.ok () :=
  ⟨by decide,
   (do_deallocate_ignores_free_flag [BlockInfo.mk 100 64 true] 100 64 8).1 (by decide)⟩

/-- C7 at its failing input: on a fresh allocator `allocate(64)` returns 100,
`deallocate(100, 64)` frees it, `allocate(32)` returns 100 again by reusing the record
of size 64; the immediately following `deallocate(100, 32)` throws `std::logic_error`
and the record stays in use. -/
theorem round_trip_fails_after_reuse :
    do_allocate [] 64 8 (some 100) = (Except.ok 100, [BlockInfo.mk 100 64 false])
    ∧ do_deallocate [BlockInfo.mk 100 64 false] 100 64 8
        = (Except.ok (), [BlockInfo.mk 100 64 true])
    ∧ (∀ sysNew, do_allocate [BlockInfo.mk 100 64 true] 32 8 sysNew
        = (Except.ok 100, [BlockInfo.mk 100 64 false]))
    ∧ do_deallocate [BlockInfo.mk 100 64 false] 100 32 8
        = (Except.error Error.logic_error, [BlockInfo.mk 100 64 false]) := by
  refine ⟨by decide, by decide, ?_, by decide⟩
  intro sysNew
  rfl

/-- C8: if `allocate(S)` returns `a` and the following `deallocate(a, S)` returns
normally, then for `S2 ≤ S` the very next `allocate(S2)` returns `a` again, provided no
record that precedes the record of `a` (the record the deallocate freed, i.e. the first
one with address `a` and size `S`) is free with size at least `S2`. The proof only
uses that the deallocate succeeded. -/
theorem reuse_law (blocks s1 s2 : List BlockInfo) (S S2 a al1 al2 al3 : Nat)
    (sys1 sys3 : Option Nat)
    (_hA : do_allocate blocks S al1 sys1 = (Except.ok a, s1))
    (hD : do_deallocate s1 a S al2 = (Except.ok (), s2))
    (hS : S2 ≤ S)
    (hFirst : ∀ pre r post, s2 = pre ++ r :: post → (r.ptr = a ∧ r.size = S) →
        (∀ x ∈ pre, ¬ (x.ptr = a ∧ x.size = S)) →
        ∀ x ∈ pre, ¬ (x.is_free = true ∧ S2 ≤ x.size)) :
    (do_allocate s2 S2 al3 sys3).1 = Except.ok a := by
  by_cases h : ∃ x ∈ s1, x.ptr = a ∧ x.size = S
  · obtain ⟨pre, b, post, _, hpre, hb, hres⟩ := do_deallocate_found s1 a S al2 h
    rw [hres] at hD
    have hs2 : s2 = pre ++ { b with is_free := true } :: post := by
      have := congrArg Prod.snd hD
      exact this.symm
    have hnofit := hFirst pre { b with is_free := true } post hs2 hb hpre
    have hfit : fits S2 { b with is_free := true } := ⟨rfl, by rw [hb.2]; exact hS⟩
    rw [hs2]
    simp only [do_allocate, allocScan_first S2 pre _ post hnofit hfit]
    rw [hb.1]
  · rw [do_deallocate_not_found s1 a S al2 h] at hD
    have := congrArg Prod.fst hD
    exact absurd this (by simp)

theorem reuse_law_witness :
    do_allocate [BlockInfo.mk 10 16 true, BlockInfo.mk 20 64 true] 64 8 none
      = (Except.ok 20, [BlockInfo.mk 10 16 true, BlockInfo.mk 20 64 false])
    ∧ do_deallocate [BlockInfo.mk 10 16 true, BlockInfo.mk 20 64 false] 20 64 8
      = (Except.ok (), [BlockInfo.mk 10 16 true, BlockInfo.mk 20 64 true])
    ∧ 24 ≤ 64
    ∧ (do_allocate [BlockInfo.mk 10 16 true, BlockInfo.mk 20 64 true] 24 8 none).1
      = Except.ok 20 :=
  ⟨by decide, by decide, by decide,
   reuse_law [BlockInfo.mk 10 16 true, BlockInfo.mk 20 64 true]
     [BlockInfo.mk 10 16 true, BlockInfo.mk 20 64 false]
     [BlockInfo.mk 10 16 true, BlockInfo.mk 20 64 true] 64 24 20 8 8 8 none none
     (by decide) (by decide) (by decide)
     (by
       intro pre r post hdec hr hpre x hx
       match pre, hdec with
       | [], _ => exact absurd hx (List.not_mem_nil x)
       | [y], hdec =>
         simp only [List.cons_append, List.nil_append, List.cons.injEq] at hdec
         have hxy : x = y := by simpa using hx
         rw [hxy, ← hdec.1]
         decide
       | y :: z :: rest, hdec =>
         simp only [List.cons_append, List.cons.injEq] at hdec
         have := hdec.2.1
         have hz := hpre z (by simp)
         rw [← this] at hz
         exact absurd (by decide) hz)⟩

/-- C9: on a fresh allocator, with `A`, `B`, `C` the addresses the underlying system
hands out, `allocate` 32, 64, 32 returns `A`, `B`, `C`; `deallocate(A, 32)` succeeds;
`allocate(32)` returns `A` again; `deallocate` of `B` (64), `C` (32) and `A` (32) all
succeed; and `allocate(64)` then returns `B`. -/
theorem first_fit_scenario (A B C al : Nat) (sysD sysE : Option Nat) :
    ∃ s1 s2 s3 s4 s5 s6 s7 s8 s9,
      do_allocate [] 32 al (some A) = (Except.ok A, s1)
      ∧ do_allocate s1 64 al (some B) = (Except.ok B, s2)
      ∧ do_allocate s2 32 al (some C) = (Except.ok C, s3)
      ∧ do_deallocate s3 A 32 al = (Except.ok (), s4)
      ∧ do_allocate s4 32 al sysD = (Except.ok A, s5)
      ∧ do_deallocate s5 B 64 al = (Except.ok (), s6)
      ∧ do_deallocate s6 C 32 al = (Except.ok (), s7)
      ∧ do_deallocate s7 A 32 al = (Except.ok (), s8)
      ∧ do_allocate s8 64 al sysE = (Except.ok B, s9) := by
  refine ⟨[⟨A, 32, false⟩], [⟨A, 32, false⟩, ⟨B, 64, false⟩],
    [⟨A, 32, false⟩, ⟨B, 64, false⟩, ⟨C, 32, false⟩],
    [⟨A, 32, true⟩, ⟨B, 64, false⟩, ⟨C, 32, false⟩],
    [⟨A, 32, false⟩, ⟨B, 64, false⟩, ⟨C, 32, false⟩],
    [⟨A, 32, false⟩, ⟨B, 64, true⟩, ⟨C, 32, false⟩],
    (if A = C then [⟨A, 32, true⟩, ⟨B, 64, true⟩, ⟨C, 32, false⟩]
      else [⟨A, 32, false⟩, ⟨B, 64, true⟩, ⟨C, 32, true⟩]),
    (if A = C then [⟨A, 32, true⟩, ⟨B, 64, true⟩, ⟨C, 32, false⟩]
      else [⟨A, 32, true⟩, ⟨B, 64, true⟩, ⟨C, 32, true⟩]),
    (if A = C then [⟨A, 32, true⟩, ⟨B, 64, false⟩, ⟨C, 32, false⟩]
      else [⟨A, 32, true⟩, ⟨B, 64, false⟩, ⟨C, 32, true⟩]),
    ?_, ?_, ?_, ?_, ?_, ?_, ?_, ?_, ?_⟩
  · simp [do_allocate, allocScan]
  · simp [do_allocate, allocScan]
  · simp [do_allocate, allocScan]
  · simp [do_deallocate, deallocScan]
  · simp [do_allocate, allocScan]
  · simp [do_deallocate, deallocScan]
  · by_cases h : A = C
    · simp [do_deallocate, deallocScan, h]
    · simp [do_deallocate, deallocScan, h]
  · by_cases h : A = C
    · simp [do_deallocate, deallocScan, h]
    · simp [do_deallocate, deallocScan, h]
  · by_cases h : A = C
    · simp [do_allocate, allocScan, h]
    · simp [do_allocate, allocScan, h]

/-! ## Lemmas on the heap and on chains -/

theorem Heap.write_same {T : Type} (h : Heap T) (p : Nat) (n : Node T) :
    h.write p n p = some n := by
  simp [Heap.write]

theorem Heap.write_other {T : Type} (h : Heap T) (p q : Nat) (n : Node T) (hq : q ≠ p) :
    h.write p n q = h q := by
  simp [Heap.write, hq]

theorem Chain.frame {T : Type} (h h2 : Heap T) :
    ∀ (nodes : List (Nat × T)) (prev cur : Option Nat),
      (∀ q ∈ nodes.map Prod.fst, h2 q = h q) → Chain h prev cur nodes →
      Chain h2 prev cur nodes := by
  intro nodes
  induction nodes with
  | nil => intro prev cur _ hc; exact hc
  | cons nd rest ih =>
    obtain ⟨q, x⟩ := nd
    intro prev cur hagree hc
    obtain ⟨hcur, nx, hq, hrest⟩ := hc
    refine ⟨hcur, nx, ?_, ?_⟩
    · rw [hagree q (by simp)]; exact hq
    · exact ih (some q) nx (fun r hr => hagree r (by simp [List.mem_map] at hr ⊢; right; exact hr))
        hrest

theorem Chain.node_of_mem {T : Type} (h : Heap T) :
    ∀ (nodes : List (Nat × T)) (prev cur : Option Nat), Chain h prev cur nodes →
      ∀ q ∈ nodes.map Prod.fst, ∃ n, h q = some n := by
  intro nodes
  induction nodes with
  | nil => intro _ _ _ q hq; simp at hq
  | cons nd rest ih =>
    obtain ⟨r, x⟩ := nd
    intro prev cur hc q hq
    obtain ⟨_, nx, hr, hrest⟩ := hc
    rw [List.map_cons, List.mem_cons] at hq
    rcases hq with rfl | hq
    · exact ⟨_, hr⟩
    · exact ih (some r) nx hrest q hq

theorem Chain.snoc {T : Type} (h h2 : Heap T) (p t : Nat) (v : T)
    (hp : h2 p = some { value := v, next := none, prev := some t })
    (ht : ∀ n, h t = some n → h2 t = some { n with next := some p })
    (hother : ∀ q, q ≠ p → q ≠ t → h2 q = h q) :
    ∀ (nodes : List (Nat × T)) (prev cur : Option Nat),
      Chain h prev cur nodes → (nodes.map Prod.fst).getLast? = some t →
      (nodes.map Prod.fst).Nodup → p ∉ nodes.map Prod.fst →
      Chain h2 prev cur (nodes ++ [(p, v)]) := by
  intro nodes
  induction nodes with
  | nil => intro _ _ _ hlast; simp at hlast
  | cons nd rest ih =>
    obtain ⟨q, x⟩ := nd
    intro prev cur hc hlast hnd hpn
    obtain ⟨hcur, nx, hq, hrest⟩ := hc
    have hqp : q ≠ p := by
      intro hEq; apply hpn; simp [hEq]
    cases rest with
    | nil =>
      have htq : q = t := by simpa using hlast
      have hnx : nx = none := hrest
      subst htq
      subst hnx
      refine ⟨hcur, some p, ?_, rfl, none, hp, rfl⟩
      rw [ht _ hq]
    | cons r rs =>
      have hlast2 : (List.map Prod.fst (r :: rs)).getLast? = some t := by
        simpa [List.getLast?_cons_cons] using hlast
      have htmem : t ∈ List.map Prod.fst (r :: rs) := List.mem_of_getLast?_eq_some hlast2
      have hnd2 : (List.map Prod.fst (r :: rs)).Nodup := by
        rw [List.map_cons] at hnd; exact (List.nodup_cons.mp hnd).2
      have hqt : q ≠ t := by
        intro hEq
        rw [List.map_cons] at hnd
        exact (List.nodup_cons.mp hnd).1 (hEq ▸ htmem)
      have hpn2 : p ∉ List.map Prod.fst (r :: rs) := by
        intro hmem; apply hpn
        rw [List.map_cons]; exact List.mem_cons_of_mem _ hmem
      refine ⟨hcur, nx, ?_, ?_⟩
      · rw [hother q hqp hqt]; exact hq
      · exact ih (some q) nx hrest hlast2 hnd2 hpn2

theorem yields_of_chain {T : Type} (h : Heap T) :
    ∀ (nodes : List (Nat × T)) (prev cur : Option Nat), Chain h prev cur nodes →
      yields h { current := cur } (nodes.map Prod.snd) := by
  intro nodes
  induction nodes with
  | nil =>
    intro prev cur hc
    have hcur : cur = none := hc
    simp [yields, hcur]
  | cons nd rest ih =>
    obtain ⟨q, x⟩ := nd
    intro prev cur hc
    obtain ⟨hcur, nx, hq, hrest⟩ := hc
    subst hcur
    refine ⟨by simp, ?_, ?_⟩
    · simp [Iterator.deref, hq]
    · have hadv : Iterator.advance h { current := some q } = { current := nx } := by
        simp [Iterator.advance, Heap.getNext, hq]
      rw [hadv]
      exact ih (some q) nx hrest

theorem yields_iterate {T : Type} (h : Heap T) :
    ∀ (vs : List T) (it : Iterator), yields h it vs →
      (Iterator.advance h)^[vs.length] it = { current := none }
      ∧ ∀ k (hk : k < vs.length),
          (Iterator.advance h)^[k] it ≠ { current := none }
          ∧ ((Iterator.advance h)^[k] it).deref h = some (vs.get ⟨k, hk⟩) := by
  intro vs
  induction vs with
  | nil =>
    intro it hy
    refine ⟨hy, ?_⟩
    intro k hk
    exact absurd hk (Nat.not_lt_zero k)
  | cons v rest ih =>
    intro it hy
    obtain ⟨hne, hd, hrest⟩ := hy
    obtain ⟨hend, hk⟩ := ih (it.advance h) hrest
    refine ⟨?_, ?_⟩
    · simpa [Function.iterate_succ_apply] using hend
    · intro k hklt
      cases k with
      | zero => exact ⟨hne, hd⟩
      | succ k =>
        have hk2 : k < rest.length := Nat.lt_of_succ_lt_succ hklt
        simpa [Function.iterate_succ_apply] using hk k hk2

/-! ## Allocation from a resource whose records have distinct addresses -/

theorem do_allocate_fresh (blocks : List BlockInfo) (held : List Nat) (bytes al a : Nat)
    (hnd : (blocks.map BlockInfo.ptr).Nodup)
    (hheld : ∀ q ∈ held, ∃ b ∈ blocks, b.ptr = q ∧ b.is_free = false)
    (ha : a ∉ blocks.map BlockInfo.ptr) :
    ∃ p res, do_allocate blocks bytes al (some a) = (Except.ok p, res)
      ∧ p ∉ held
      ∧ (res.map BlockInfo.ptr).Nodup
      ∧ (∀ q ∈ held, ∃ b ∈ res, b.ptr = q ∧ b.is_free = false)
      ∧ (∃ b ∈ res, b.ptr = p ∧ b.is_free = false)
      ∧ (∀ q ∈ res.map BlockInfo.ptr, q = a ∨ q ∈ blocks.map BlockInfo.ptr) := by
  by_cases hfit : ∃ x ∈ blocks, fits bytes x
  · obtain ⟨pre, b, post, hdec, hpre, hb⟩ := exists_first (fits bytes) blocks hfit
    have hres : do_allocate blocks bytes al (some a)
        = (Except.ok b.ptr, pre ++ { b with is_free := false } :: post) := by
      rw [hdec]
      simp only [do_allocate, allocScan_first bytes pre b post hpre hb]
    have hmap : (pre ++ { b with is_free := false } :: post).map BlockInfo.ptr
        = blocks.map BlockInfo.ptr := by
      rw [hdec]; simp
    have hbmem : b ∈ blocks := by rw [hdec]; simp
    have hinj := List.inj_on_of_nodup_map hnd
    refine ⟨b.ptr, _, hres, ?_, ?_, ?_, ?_, ?_⟩
    · intro hmem
      obtain ⟨c, hc, hcp, hcf⟩ := hheld _ hmem
      have hcb : c = b := hinj hc hbmem hcp
      rw [hcb, hb.1] at hcf
      exact absurd hcf (by simp)
    · rw [hmap]; exact hnd
    · intro q hq
      obtain ⟨c, hc, hcp, hcf⟩ := hheld q hq
      refine ⟨c, ?_, hcp, hcf⟩
      rw [hdec] at hc
      rcases List.mem_append.mp hc with hc | hc
      · exact List.mem_append.mpr (Or.inl hc)
      · rcases List.mem_cons.mp hc with hc | hc
        · rw [hc, hb.1] at hcf
          exact absurd hcf (by simp)
        · exact List.mem_append.mpr (Or.inr (List.mem_cons_of_mem _ hc))
    · exact ⟨{ b with is_free := false }, by simp, rfl, rfl⟩
    · intro q hq
      rw [hmap] at hq
      exact Or.inr hq
  · have hno : ∀ x ∈ blocks, ¬ fits bytes x := fun x hx hf => hfit ⟨x, hx, hf⟩
    have hres : do_allocate blocks bytes al (some a)
        = (Except.ok a, blocks ++ [{ ptr := a, size := bytes, is_free := false }]) := by
      simp only [do_allocate, allocScan_none bytes blocks hno]
    refine ⟨a, _, hres, ?_, ?_, ?_, ?_, ?_⟩
    · intro hmem
      obtain ⟨c, hc, hcp, _⟩ := hheld _ hmem
      exact ha (List.mem_map.mpr ⟨c, hc, hcp⟩)
    · rw [List.map_append, List.map_cons, List.map_nil]
      refine List.Nodup.append hnd (List.nodup_singleton a) ?_
      intro x hx hx2
      rw [List.mem_singleton] at hx2
      have hx3 : x = a := hx2
      exact ha (hx3 ▸ hx)
    · intro q hq
      obtain ⟨c, hc, hcp, hcf⟩ := hheld q hq
      exact ⟨c, List.mem_append.mpr (Or.inl hc), hcp, hcf⟩
    · exact ⟨{ ptr := a, size := bytes, is_free := false }, by simp, rfl, rfl⟩
    · intro q hq
      rw [List.map_append, List.map_cons, List.map_nil, List.mem_append,
        List.mem_singleton] at hq
      rcases hq with hq | hq
      · exact Or.inr hq
      · exact Or.inl hq

/-! ## `push_back` on a well-formed list -/

theorem push_back_wellFormed {T : Type} (nodeSize nodeAlign : Nat) (l : DoubleLinkedList T)
    (nodes : List (Nat × T)) (v : T) (a : Nat) (hwf : WellFormed l nodes)
    (ha : a ∉ l.resource.map BlockInfo.ptr) :
    ∃ p l2, l.push_back nodeSize nodeAlign v (some a) = (Except.ok (), l2)
      ∧ WellFormed l2 (nodes ++ [(p, v)])
      ∧ (∀ q ∈ l2.resource.map BlockInfo.ptr, q = a ∨ q ∈ l.resource.map BlockInfo.ptr) := by
  obtain ⟨hchain, htail, hnd, hrnd, hheld⟩ := hwf
  obtain ⟨p, res, hres, hpn, hresnd, hheld2, hpheld, hsub⟩ :=
    do_allocate_fresh l.resource (nodes.map Prod.fst) nodeSize nodeAlign a hrnd hheld ha
  have hnd2 : ((nodes ++ [(p, v)]).map Prod.fst).Nodup := by
    rw [List.map_append, List.map_cons, List.map_nil]
    refine List.Nodup.append hnd (List.nodup_singleton p) ?_
    intro x hx hx2
    rw [List.mem_singleton] at hx2
    have hx3 : x = p := hx2
    exact hpn (hx3 ▸ hx)
  have hheld3 : ∀ q ∈ (nodes ++ [(p, v)]).map Prod.fst,
      ∃ b ∈ res, b.ptr = q ∧ b.is_free = false := by
    intro q hq
    rw [List.map_append, List.map_cons, List.map_nil, List.mem_append,
      List.mem_singleton] at hq
    rcases hq with hq | hq
    · exact hheld2 q hq
    · rw [hq]; exact hpheld
  have hlast : ((nodes ++ [(p, v)]).map Prod.fst).getLast? = some p := by
    rw [List.map_append, List.map_cons, List.map_nil, List.getLast?_concat]
  cases hn : nodes with
  | nil =>
    subst hn
    have hhead : l.head = none := hchain
    have htl : l.tail = none := by simpa using htail
    refine ⟨p, { resource := res,
                 memory := l.memory.write p { value := v, next := none, prev := none },
                 head := some p, tail := some p }, ?_, ?_, ?_⟩
    · simp only [DoubleLinkedList.push_back, hres, htl]
    · refine ⟨?_, ?_, hnd2, hresnd, hheld3⟩
      · exact ⟨rfl, none, Heap.write_same _ _ _, rfl⟩
      · exact hlast.symm
    · exact hsub
  | cons nd rest =>
    have hne : nodes.map Prod.fst ≠ [] := by rw [hn]; simp
    obtain ⟨t, ht⟩ : ∃ t, (nodes.map Prod.fst).getLast? = some t := by
      cases hl : (nodes.map Prod.fst).getLast? with
      | none => exact absurd (List.getLast?_eq_none_iff.mp hl) hne
      | some t => exact ⟨t, rfl⟩
    have htl : l.tail = some t := by rw [htail, ht]
    have htmem : t ∈ nodes.map Prod.fst := List.mem_of_getLast?_eq_some ht
    have htp : t ≠ p := fun hEq => hpn (hEq ▸ htmem)
    have hpt : p ≠ t := fun hEq => htp hEq.symm
    obtain ⟨n, hnode⟩ := Chain.node_of_mem l.memory nodes none l.head hchain t htmem
    rw [← hn]
    refine ⟨p, { resource := res,
                 memory := ((l.memory.write p { value := v, next := none, prev := none }).setNext
                   t (some p)).setPrev p (some t),
                 head := l.head, tail := some p }, ?_, ?_, ?_⟩
    · simp only [DoubleLinkedList.push_back, hres, htl]
    · refine ⟨?_, ?_, hnd2, hresnd, hheld3⟩
      · refine Chain.snoc l.memory _ p t v ?_ ?_ ?_ nodes none l.head hchain ht hnd hpn
        · simp [Heap.setPrev, Heap.setNext, Heap.write, htp, hpt, hnode]
        · intro n2 hn2
          rw [hnode] at hn2
          cases hn2
          simp [Heap.setPrev, Heap.setNext, Heap.write, htp, hpt, hnode]
        · intro q hqp hqt
          simp [Heap.setPrev, Heap.setNext, Heap.write, htp, hpt, hnode, hqp, hqt]
      · exact hlast.symm
    · exact hsub

theorem push_back_all_wellFormed {T : Type} (nodeSize nodeAlign : Nat) :
    ∀ (vs : List T) (addrs : List Nat) (l : DoubleLinkedList T) (nodes : List (Nat × T)),
      WellFormed l nodes → addrs.length = vs.length → addrs.Nodup →
      (∀ a ∈ addrs, a ∉ l.resource.map BlockInfo.ptr) →
      ∃ l2 added, l.push_back_all nodeSize nodeAlign (vs.zip (addrs.map some))
          = (Except.ok (), l2)
        ∧ added.map Prod.snd = vs ∧ WellFormed l2 (nodes ++ added) := by
  intro vs
  induction vs with
  | nil =>
    intro addrs l nodes hwf _ _ _
    refine ⟨l, [], ?_, rfl, ?_⟩
    · simp [DoubleLinkedList.push_back_all]
    · simpa using hwf
  | cons v rest ih =>
    intro addrs l nodes hwf hlen hnd hfresh
    cases addrs with
    | nil => simp at hlen
    | cons a as =>
      have hlen2 : as.length = rest.length := by simpa using hlen
      obtain ⟨hna, hnd2⟩ := List.nodup_cons.mp hnd
      obtain ⟨p, l1, hpush, hwf1, hsub⟩ :=
        push_back_wellFormed nodeSize nodeAlign l nodes v a hwf
          (hfresh a (List.mem_cons_self _ _))
      have hfresh1 : ∀ c ∈ as, c ∉ l1.resource.map BlockInfo.ptr := by
        intro c hc hmem
        rcases hsub c hmem with hca | hcl
        · exact hna (hca ▸ hc)
        · exact hfresh c (List.mem_cons_of_mem _ hc) hcl
      obtain ⟨l2, added, hall, hvals, hwf2⟩ :=
        ih as l1 (nodes ++ [(p, v)]) hwf1 hlen2 hnd2 hfresh1
      refine ⟨l2, (p, v) :: added, ?_, ?_, ?_⟩
      · simp only [List.map_cons, List.zip_cons_cons, DoubleLinkedList.push_back_all, hpush]
        exact hall
      · simp [hvals]
      · simpa [List.append_assoc] using hwf2

theorem wellFormed_new {T : Type} (l : DoubleLinkedList T) (hhead : l.head = none)
    (htail : l.tail = none) (hnd : (l.resource.map BlockInfo.ptr).Nodup) :
    WellFormed l [] := by
  refine ⟨hhead, ?_, ?_, hnd, ?_⟩
  · simpa using htail
  · simp
  · intro p hp; simp at hp

/-! ## `pop_back` on a well-formed list -/

theorem Chain.last_node {T : Type} (h : Heap T) (p : Nat) (v : T) :
    ∀ (nodes : List (Nat × T)) (prev cur : Option Nat),
      Chain h prev cur (nodes ++ [(p, v)]) →
      h p = some { value := v, next := none,
                   prev := ((nodes.map Prod.fst).getLast?).or prev } := by
  intro nodes
  induction nodes with
  | nil =>
    intro prev cur hc
    obtain ⟨_, nx, hp, hnx⟩ := hc
    have hnx2 : nx = none := hnx
    subst hnx2
    simpa using hp
  | cons nd rest ih =>
    obtain ⟨q, x⟩ := nd
    intro prev cur hc
    obtain ⟨_, nx, _, hrest⟩ := hc
    have := ih (some q) nx hrest
    rw [this]
    cases rest with
    | nil => simp
    | cons r rs =>
      cases hl : (List.map Prod.fst (r :: rs)).getLast? with
      | none => simp at hl
      | some t =>
        have hl2 : (r.1 :: List.map Prod.fst rs).getLast? = some t := by simpa using hl
        simp [List.getLast?_cons_cons, hl2]

theorem Chain.unsnoc {T : Type} (h h2 : Heap T) (p t : Nat) (v : T)
    (ht : ∀ n, h t = some n → h2 t = some { n with next := none })
    (hother : ∀ q, q ≠ p → q ≠ t → h2 q = h q) :
    ∀ (nodes : List (Nat × T)) (prev cur : Option Nat),
      Chain h prev cur (nodes ++ [(p, v)]) → (nodes.map Prod.fst).getLast? = some t →
      ((nodes ++ [(p, v)]).map Prod.fst).Nodup →
      Chain h2 prev cur nodes := by
  intro nodes
  induction nodes with
  | nil => intro _ _ _ hlast; simp at hlast
  | cons nd rest ih =>
    obtain ⟨q, x⟩ := nd
    intro prev cur hc hlast hnd
    obtain ⟨hcur, nx, hq, hrest⟩ := hc
    have hnd1 : q ∉ (rest ++ [(p, v)]).map Prod.fst ∧ ((rest ++ [(p, v)]).map Prod.fst).Nodup := by
      have : (q :: (rest ++ [(p, v)]).map Prod.fst).Nodup := by simpa using hnd
      exact List.nodup_cons.mp this
    have hqp : q ≠ p := by
      intro hEq; apply hnd1.1; simp [hEq]
    cases rest with
    | nil =>
      have htq : q = t := by simpa using hlast
      subst htq
      refine ⟨hcur, none, ?_, rfl⟩
      rw [ht _ hq]
    | cons r rs =>
      have hlast2 : (List.map Prod.fst (r :: rs)).getLast? = some t := by
        simpa [List.getLast?_cons_cons] using hlast
      have htmem : t ∈ List.map Prod.fst (r :: rs) := List.mem_of_getLast?_eq_some hlast2
      have hqt : q ≠ t := by
        intro hEq
        apply hnd1.1
        rw [List.map_append, List.mem_append]
        exact Or.inl (hEq ▸ htmem)
      refine ⟨hcur, nx, ?_, ?_⟩
      · rw [hother q hqp hqt]; exact hq
      · exact ih (some q) nx hrest hlast2 hnd1.2

theorem do_deallocate_held (blocks : List BlockInfo) (held : List Nat) (p bytes al : Nat)
    (hheld : ∀ q ∈ held, ∃ b ∈ blocks, b.ptr = q ∧ b.is_free = false)
    (hp : p ∉ held) :
    ((do_deallocate blocks p bytes al).2.map BlockInfo.ptr) = blocks.map BlockInfo.ptr
    ∧ ∀ q ∈ held, ∃ b ∈ (do_deallocate blocks p bytes al).2, b.ptr = q ∧ b.is_free = false := by
  by_cases h : ∃ x ∈ blocks, x.ptr = p ∧ x.size = bytes
  · obtain ⟨pre, b, post, hdec, _, hb, hres⟩ := do_deallocate_found blocks p bytes al h
    rw [hres]
    refine ⟨by rw [hdec]; simp, ?_⟩
    intro q hq
    obtain ⟨c, hc, hcp, hcf⟩ := hheld q hq
    refine ⟨c, ?_, hcp, hcf⟩
    rw [hdec] at hc
    rcases List.mem_append.mp hc with hc | hc
    · exact List.mem_append.mpr (Or.inl hc)
    · rcases List.mem_cons.mp hc with hc | hc
      · exfalso
        apply hp
        have : q = p := by rw [← hcp, hc, hb.1]
        exact this ▸ hq
      · exact List.mem_append.mpr (Or.inr (List.mem_cons_of_mem _ hc))
  · rw [do_deallocate_not_found blocks p bytes al h]
    exact ⟨rfl, hheld⟩

theorem pop_back_wellFormed {T : Type} (nodeSize nodeAlign : Nat) (l : DoubleLinkedList T)
    (nodes : List (Nat × T)) (p : Nat) (v : T) (hwf : WellFormed l (nodes ++ [(p, v)])) :
    ∃ l2, l.pop_back nodeSize nodeAlign
        = ((do_deallocate l.resource p nodeSize nodeAlign).1, l2)
      ∧ WellFormed l2 nodes
      ∧ l2.resource = (do_deallocate l.resource p nodeSize nodeAlign).2
      ∧ l2.memory p = none := by
  obtain ⟨hchain, htail, hnd, hrnd, hheld⟩ := hwf
  have htl : l.tail = some p := by
    rw [htail, List.map_append, List.map_cons, List.map_nil, List.getLast?_concat]
  have hnode := Chain.last_node l.memory p v nodes none l.head hchain
  have hprev : l.memory.getPrev p = (nodes.map Prod.fst).getLast? := by
    simp [Heap.getPrev, hnode]
  have hnd0 : (nodes.map Prod.fst).Nodup ∧ p ∉ nodes.map Prod.fst := by
    rw [List.map_append, List.map_cons, List.map_nil] at hnd
    have := List.nodup_append.mp hnd
    refine ⟨this.1, ?_⟩
    intro hmem
    exact this.2.2 hmem (List.mem_singleton_self p)
  have hheld0 : ∀ q ∈ nodes.map Prod.fst, ∃ b ∈ l.resource, b.ptr = q ∧ b.is_free = false := by
    intro q hq
    apply hheld
    rw [List.map_append, List.mem_append]
    exact Or.inl hq
  obtain ⟨hmap, hheld2⟩ :=
    do_deallocate_held l.resource (nodes.map Prod.fst) p nodeSize nodeAlign hheld0 hnd0.2
  have hrnd2 : ((do_deallocate l.resource p nodeSize nodeAlign).2.map BlockInfo.ptr).Nodup := by
    rw [hmap]; exact hrnd
  cases hn : nodes with
  | nil =>
    subst hn
    have hprev0 : l.memory.getPrev p = none := by simpa using hprev
    refine ⟨{ resource := (do_deallocate l.resource p nodeSize nodeAlign).2,
              memory := l.memory.erase p, head := none, tail := none }, ?_, ?_, rfl, ?_⟩
    · simp only [DoubleLinkedList.pop_back, htl, hprev0]
    · refine ⟨rfl, by simp, by simp, hrnd2, ?_⟩
      intro q hq; simp at hq
    · simp [Heap.erase]
  | cons nd rest =>
    have hne : nodes.map Prod.fst ≠ [] := by rw [hn]; simp
    obtain ⟨t, ht⟩ : ∃ t, (nodes.map Prod.fst).getLast? = some t := by
      cases hl : (nodes.map Prod.fst).getLast? with
      | none => exact absurd (List.getLast?_eq_none_iff.mp hl) hne
      | some t => exact ⟨t, rfl⟩
    have htmem : t ∈ nodes.map Prod.fst := List.mem_of_getLast?_eq_some ht
    have htp : t ≠ p := fun hEq => hnd0.2 (hEq ▸ htmem)
    have hpt : p ≠ t := fun hEq => htp hEq.symm
    have hprev1 : l.memory.getPrev p = some t := by rw [hprev, ht]
    obtain ⟨n, hnt⟩ : ∃ n, l.memory t = some n := by
      apply Chain.node_of_mem l.memory (nodes ++ [(p, v)]) none l.head hchain t
      rw [List.map_append, List.mem_append]
      exact Or.inl htmem
    rw [← hn]
    refine ⟨{ resource := (do_deallocate l.resource p nodeSize nodeAlign).2,
              memory := (l.memory.setNext t none).erase p, head := l.head, tail := some t },
            ?_, ?_, rfl, ?_⟩
    · simp only [DoubleLinkedList.pop_back, htl, hprev1]
    · refine ⟨?_, ht.symm, hnd0.1, hrnd2, hheld2⟩
      refine Chain.unsnoc l.memory _ p t v ?_ ?_ nodes none l.head hchain ht hnd
      · intro n2 hn2
        rw [hnt] at hn2
        cases hn2
        simp [Heap.erase, Heap.setNext, Heap.write, htp, hpt, hnt]
      · intro q hqp hqt
        simp [Heap.erase, Heap.setNext, Heap.write, htp, hpt, hnt, hqp, hqt]
    · simp [Heap.erase]

/-! ## Claims on the sequence -/

/-- C10: let the list be empty, on a memory resource whose records have distinct
addresses, and let the underlying system hand out addresses that are new and pairwise
distinct. Then `push_back` of `v1..vn` in that order succeeds, iterating from `begin()`
reads exactly `v1..vn`, the iterator differs from `end()` before each of the `n` reads
and equals `end()` after exactly `n` advances. More generally, `push_back(v)` on a
well-formed list whose iteration reads `xs` succeeds and leaves a well-formed list
whose iteration reads `xs ++ [v]`. -/
theorem push_back_order {T : Type} (nodeSize nodeAlign : Nat) :
    (∀ (l : DoubleLinkedList T) (vs : List T) (addrs : List Nat),
        l.head = none → l.tail = none → (l.resource.map BlockInfo.ptr).Nodup →
        addrs.length = vs.length → addrs.Nodup →
        (∀ a ∈ addrs, a ∉ l.resource.map BlockInfo.ptr) →
        (l.push_back_all nodeSize nodeAlign (vs.zip (addrs.map some))).1 = Except.ok ()
        ∧ yields (l.push_back_all nodeSize nodeAlign (vs.zip (addrs.map some))).2.memory
            (l.push_back_all nodeSize nodeAlign (vs.zip (addrs.map some))).2.begin vs
        ∧ (Iterator.advance
              (l.push_back_all nodeSize nodeAlign (vs.zip (addrs.map some))).2.memory)^[vs.length]
              (l.push_back_all nodeSize nodeAlign (vs.zip (addrs.map some))).2.begin
            = (l.push_back_all nodeSize nodeAlign (vs.zip (addrs.map some))).2.end_
        ∧ ∀ k (hk : k < vs.length),
            (Iterator.advance
                (l.push_back_all nodeSize nodeAlign (vs.zip (addrs.map some))).2.memory)^[k]
                (l.push_back_all nodeSize nodeAlign (vs.zip (addrs.map some))).2.begin
              ≠ (l.push_back_all nodeSize nodeAlign (vs.zip (addrs.map some))).2.end_
            ∧ ((Iterator.advance
                (l.push_back_all nodeSize nodeAlign (vs.zip (addrs.map some))).2.memory)^[k]
                (l.push_back_all nodeSize nodeAlign (vs.zip (addrs.map some))).2.begin).deref
                (l.push_back_all nodeSize nodeAlign (vs.zip (addrs.map some))).2.memory
              = some (vs.get ⟨k, hk⟩))
    ∧ (∀ (l : DoubleLinkedList T) (nodes : List (Nat × T)) (v : T) (a : Nat),
        WellFormed l nodes → a ∉ l.resource.map BlockInfo.ptr →
        yields l.memory l.begin (nodes.map Prod.snd)
        ∧ (l.push_back nodeSize nodeAlign v (some a)).1 = Except.ok ()
        ∧ (∃ p, WellFormed (l.push_back nodeSize nodeAlign v (some a)).2 (nodes ++ [(p, v)]))
        ∧ yields (l.push_back nodeSize nodeAlign v (some a)).2.memory
            (l.push_back nodeSize nodeAlign v (some a)).2.begin (nodes.map Prod.snd ++ [v])) := by
  constructor
  · intro l vs addrs hhead htail hrnd hlen hnd hfresh
    obtain ⟨l2, added, hall, hvals, hwf2⟩ :=
      push_back_all_wellFormed nodeSize nodeAlign vs addrs l [] (wellFormed_new l hhead htail hrnd)
        hlen hnd hfresh
    rw [hall]
    have hy : yields l2.memory l2.begin vs := by
      have := yields_of_chain l2.memory ([] ++ added) none l2.head hwf2.1
      simpa [hvals] using this
    obtain ⟨hend, hk⟩ := yields_iterate l2.memory vs l2.begin hy
    exact ⟨rfl, hy, hend, hk⟩
  · intro l nodes v a hwf ha
    obtain ⟨p, l2, hpush, hwf2, _⟩ := push_back_wellFormed nodeSize nodeAlign l nodes v a hwf ha
    rw [hpush]
    refine ⟨yields_of_chain l.memory nodes none l.head hwf.1, rfl, ⟨p, hwf2⟩, ?_⟩
    have := yields_of_chain l2.memory (nodes ++ [(p, v)]) none l2.head hwf2.1
    simpa using this

theorem push_back_order_witness :
    ((DoubleLinkedList.new [] (fun _ => none) : DoubleLinkedList Nat).push_back_all 24 8
        ([1, 2, 3].zip ([100, 200, 300].map some))).1 = Except.ok ()
    ∧ yields
        ((DoubleLinkedList.new [] (fun _ => none) : DoubleLinkedList Nat).push_back_all 24 8
          ([1, 2, 3].zip ([100, 200, 300].map some))).2.memory
        ((DoubleLinkedList.new [] (fun _ => none) : DoubleLinkedList Nat).push_back_all 24 8
          ([1, 2, 3].zip ([100, 200, 300].map some))).2.begin [1, 2, 3] :=
  ⟨((push_back_order 24 8).1 (DoubleLinkedList.new [] (fun _ => none)) [1, 2, 3]
      [100, 200, 300] rfl rfl (by decide) rfl (by decide) (by decide)).1,
   ((push_back_order 24 8).1 (DoubleLinkedList.new [] (fun _ => none)) [1, 2, 3]
      [100, 200, 300] rfl rfl (by decide) rfl (by decide) (by decide)).2.1⟩

theorem sampleList_wellFormed : WellFormed sampleList [(100, 1), (200, 2)] := by
  refine ⟨⟨rfl, some 200, rfl, rfl, none, rfl, rfl⟩, rfl, by decide, by decide, ?_⟩
  intro p hp
  simp only [List.map_cons, List.map_nil, List.mem_cons, List.mem_singleton,
    List.not_mem_nil, or_false] at hp
  rcases hp with rfl | rfl
  · exact ⟨BlockInfo.mk 100 24 false, by simp [sampleList], rfl, rfl⟩
  · exact ⟨BlockInfo.mk 200 24 false, by simp [sampleList], rfl, rfl⟩

theorem exists_snoc {α : Type} (l : List α) (h : l ≠ []) : ∃ init last, l = init ++ [last] :=
  ⟨l.dropLast, l.getLast h, (List.dropLast_append_getLast h).symm⟩

theorem Chain.head_some {T : Type} (h : Heap T) (prev cur : Option Nat)
    (nodes : List (Nat × T)) (hc : Chain h prev cur nodes) (hne : nodes ≠ []) :
    cur = (nodes.map Prod.fst).head? ∧ ∃ p, cur = some p := by
  cases nodes with
  | nil => exact absurd rfl hne
  | cons nd rest =>
    obtain ⟨q, x⟩ := nd
    exact ⟨hc.1, q, hc.1⟩

/-- C11: let `l` be well formed with nodes `nodes ++ [(p, v)]`, so that iteration reads
`xs ++ [v]`, and let `pop_back` return normally. Then iteration reads exactly `xs`
afterwards, the list is well formed over `nodes`, `tail` is what `p->prev` was (the
last remaining address, and `head` and `tail` are both null when `p` was the only
node), the node at `p` is destroyed, and the resource is left as by the successful
call `do_deallocate(p, nodeSize, nodeAlign)`. -/
theorem pop_back_removes_last {T : Type} (nodeSize nodeAlign : Nat) (l : DoubleLinkedList T)
    (nodes : List (Nat × T)) (p : Nat) (v : T)
    (hwf : WellFormed l (nodes ++ [(p, v)]))
    (hok : (l.pop_back nodeSize nodeAlign).1 = Except.ok ()) :
    yields l.memory l.begin (nodes.map Prod.snd ++ [v])
    ∧ l.tail = some p
    ∧ yields (l.pop_back nodeSize nodeAlign).2.memory (l.pop_back nodeSize nodeAlign).2.begin
        (nodes.map Prod.snd)
    ∧ WellFormed (l.pop_back nodeSize nodeAlign).2 nodes
    ∧ (l.pop_back nodeSize nodeAlign).2.tail = l.memory.getPrev p
    ∧ (l.pop_back nodeSize nodeAlign).2.tail = (nodes.map Prod.fst).getLast?
    ∧ (nodes = [] → (l.pop_back nodeSize nodeAlign).2.head = none
        ∧ (l.pop_back nodeSize nodeAlign).2.tail = none)
    ∧ (l.pop_back nodeSize nodeAlign).2.memory p = none
    ∧ do_deallocate l.resource p nodeSize nodeAlign
        = (Except.ok (), (l.pop_back nodeSize nodeAlign).2.resource) := by
  obtain ⟨l2, hpop, hwf2, hres, hmem⟩ := pop_back_wellFormed nodeSize nodeAlign l nodes p v hwf
  have hnode := Chain.last_node l.memory p v nodes none l.head hwf.1
  have hprev : l.memory.getPrev p = (nodes.map Prod.fst).getLast? := by
    simp [Heap.getPrev, hnode]
  have htl : l.tail = some p := by
    rw [hwf.2.1, List.map_append, List.map_cons, List.map_nil, List.getLast?_concat]
  rw [hpop] at hok ⊢
  have hok2 : (do_deallocate l.resource p nodeSize nodeAlign).1 = Except.ok () := hok
  refine ⟨?_, htl, yields_of_chain l2.memory nodes none l2.head hwf2.1, hwf2, ?_, hwf2.2.1, ?_,
    hmem, ?_⟩
  · have := yields_of_chain l.memory (nodes ++ [(p, v)]) none l.head hwf.1
    simpa using this
  · show l2.tail = _
    rw [hwf2.2.1, hprev]
  · intro hn
    subst hn
    exact ⟨hwf2.1, by simpa using hwf2.2.1⟩
  · show _ = (_, l2.resource)
    rw [hres, ← hok2]

theorem pop_back_removes_last_witness :
    yields (sampleList.pop_back 24 8).2.memory (sampleList.pop_back 24 8).2.begin [1]
    ∧ (sampleList.pop_back 24 8).2.tail = some 100
    ∧ do_deallocate sampleList.resource 200 24 8
        = (Except.ok (), (sampleList.pop_back 24 8).2.resource) :=
  ⟨(pop_back_removes_last 24 8 sampleList [(100, 1)] 200 2 sampleList_wellFormed
      (by decide)).2.2.1,
   (pop_back_removes_last 24 8 sampleList [(100, 1)] 200 2 sampleList_wellFormed
      (by decide)).2.2.2.2.2.1,
   (pop_back_removes_last 24 8 sampleList [(100, 1)] 200 2 sampleList_wellFormed
      (by decide)).2.2.2.2.2.2.2.2⟩

/-- C12 at its failing input: a first list with nodes of size 64 pushes one value on a
fresh resource and pops it, which leaves the record `(100, 64, free)`. A second list
with nodes of size 32, bound to that resource, is empty; its `push_back(7)` succeeds by
reusing the record of size 64, and the `pop_back()` that follows at once throws
`std::logic_error` and leaves the record in use. -/
theorem push_pop_throws_on_shared_resource :
    ((DoubleLinkedList.new [] (fun _ => none) : DoubleLinkedList Nat).push_back 64 8 1
        (some 100)).1 = Except.ok ()
    ∧ (((DoubleLinkedList.new [] (fun _ => none) : DoubleLinkedList Nat).push_back 64 8 1
        (some 100)).2.pop_back 64 8).1 = Except.ok ()
    ∧ (((DoubleLinkedList.new [] (fun _ => none) : DoubleLinkedList Nat).push_back 64 8 1
        (some 100)).2.pop_back 64 8).2.resource = [BlockInfo.mk 100 64 true]
    ∧ ((DoubleLinkedList.new [BlockInfo.mk 100 64 true] (fun _ => none) :
        DoubleLinkedList Nat).push_back 32 8 7 none).1 = Except.ok ()
    ∧ (((DoubleLinkedList.new [BlockInfo.mk 100 64 true] (fun _ => none) :
        DoubleLinkedList Nat).push_back 32 8 7 none).2.pop_back 32 8).1
        = Except.error Error.logic_error
    ∧ (((DoubleLinkedList.new [BlockInfo.mk 100 64 true] (fun _ => none) :
        DoubleLinkedList Nat).push_back 32 8 7 none).2.pop_back 32 8).2.resource
        = [BlockInfo.mk 100 64 false] := by
  decide

/-- C13: on a list with `head` and `tail` null, `pop_back()` returns normally and so
does `clear()`, after no loop iteration; both leave the whole state as it is, the
record list of the memory resource included, whatever that list is (on a resource
without records any call would throw or add a record); and `begin() == end()`. -/
theorem empty_removal_is_noop {T : Type} (nodeSize nodeAlign : Nat) (l : DoubleLinkedList T)
    (hhead : l.head = none) (htail : l.tail = none) :
    l.pop_back nodeSize nodeAlign = (Except.ok (), l)
    ∧ (∀ fuel, l.clear nodeSize nodeAlign fuel = some (Except.ok (), l))
    ∧ l.begin.op_eq l.end_ = true := by
  refine ⟨?_, ?_, ?_⟩
  · simp only [DoubleLinkedList.pop_back, htail]
  · intro fuel
    cases fuel <;> simp only [DoubleLinkedList.clear, hhead]
  · simp [Iterator.op_eq, DoubleLinkedList.begin, DoubleLinkedList.end_, hhead]

theorem empty_removal_is_noop_witness :
    (DoubleLinkedList.new [] (fun _ => none) : DoubleLinkedList Nat).pop_back 24 8
      = (Except.ok (), DoubleLinkedList.new [] (fun _ => none))
    ∧ (∀ fuel, (DoubleLinkedList.new [] (fun _ => none) : DoubleLinkedList Nat).clear 24 8 fuel
      = some (Except.ok (), DoubleLinkedList.new [] (fun _ => none)))
    ∧ (DoubleLinkedList.new [] (fun _ => none) : DoubleLinkedList Nat).begin.op_eq
        (DoubleLinkedList.new [] (fun _ => none) : DoubleLinkedList Nat).end_ = true :=
  empty_removal_is_noop 24 8 (DoubleLinkedList.new [] (fun _ => none)) rfl rfl

theorem clear_pops_all_aux {T : Type} (nodeSize nodeAlign : Nat) :
    ∀ (n : Nat) (nodes : List (Nat × T)) (l : DoubleLinkedList T), nodes.length = n →
      WellFormed l nodes → (l.pop_back_n nodeSize nodeAlign n).1 = Except.ok () →
      (∀ fuel, n ≤ fuel →
          l.clear nodeSize nodeAlign fuel = some (l.pop_back_n nodeSize nodeAlign n))
      ∧ (∀ fuel, fuel < n → l.clear nodeSize nodeAlign fuel = none)
      ∧ WellFormed (l.pop_back_n nodeSize nodeAlign n).2 [] := by
  intro n
  induction n with
  | zero =>
    intro nodes l hlen hwf _
    have hn : nodes = [] := List.length_eq_zero.mp hlen
    subst hn
    have hhead : l.head = none := hwf.1
    refine ⟨?_, ?_, hwf⟩
    · intro fuel _
      cases fuel <;> simp only [DoubleLinkedList.clear, hhead, DoubleLinkedList.pop_back_n]
    · intro fuel hlt
      exact absurd hlt (Nat.not_lt_zero fuel)
  | succ n ih =>
    intro nodes l hlen hwf hok
    have hne : nodes ≠ [] := by
      intro hn; rw [hn] at hlen; simp at hlen
    obtain ⟨init, last, hn⟩ := exists_snoc nodes hne
    obtain ⟨p, v⟩ := last
    subst hn
    have hlen2 : init.length = n := by simpa using hlen
    obtain ⟨q, hq⟩ := (Chain.head_some l.memory none l.head _ hwf.1 hne).2
    obtain ⟨l2, hpop, hwf2, _, _⟩ := pop_back_wellFormed nodeSize nodeAlign l init p v hwf
    cases hd : (do_deallocate l.resource p nodeSize nodeAlign).1 with
    | error e =>
      rw [hd] at hpop
      simp [DoubleLinkedList.pop_back_n, hpop] at hok
    | ok u =>
      rw [hd] at hpop
      have hstep : l.pop_back_n nodeSize nodeAlign (n + 1)
          = l2.pop_back_n nodeSize nodeAlign n := by
        simp only [DoubleLinkedList.pop_back_n, hpop]
      rw [hstep] at hok ⊢
      obtain ⟨h1, h2, h3⟩ := ih init l2 hlen2 hwf2 hok
      refine ⟨?_, ?_, h3⟩
      · intro fuel hle
        cases fuel with
        | zero => exact absurd hle (Nat.not_succ_le_zero n)
        | succ fuel =>
          simp only [DoubleLinkedList.clear, hq, hpop]
          exact h1 fuel (Nat.le_of_succ_le_succ hle)
      · intro fuel hlt
        cases fuel with
        | zero => simp only [DoubleLinkedList.clear, hq]
        | succ fuel =>
          simp only [DoubleLinkedList.clear, hq, hpop]
          exact h2 fuel (Nat.lt_of_succ_lt_succ hlt)

/-- C14: on a well-formed list with `n` nodes whose `n` successive `pop_back()` calls
all return normally, the loop of `clear()` ends: with room for `n` iterations or more
it returns exactly what `n` calls of `pop_back()` leave, with fewer it is still
running; and afterwards `head` and `tail` are null and `begin() == end()`. -/
theorem clear_pops_all {T : Type} (nodeSize nodeAlign : Nat) (l : DoubleLinkedList T)
    (nodes : List (Nat × T)) (hwf : WellFormed l nodes)
    (hok : (l.pop_back_n nodeSize nodeAlign nodes.length).1 = Except.ok ()) :
    (∀ fuel, nodes.length ≤ fuel →
        l.clear nodeSize nodeAlign fuel
          = some (l.pop_back_n nodeSize nodeAlign nodes.length))
    ∧ (∀ fuel, fuel < nodes.length → l.clear nodeSize nodeAlign fuel = none)
    ∧ (l.pop_back_n nodeSize nodeAlign nodes.length).2.head = none
    ∧ (l.pop_back_n nodeSize nodeAlign nodes.length).2.tail = none
    ∧ (l.pop_back_n nodeSize nodeAlign nodes.length).2.begin.op_eq
        (l.pop_back_n nodeSize nodeAlign nodes.length).2.end_ = true := by
  obtain ⟨h1, h2, h3⟩ :=
    clear_pops_all_aux nodeSize nodeAlign nodes.length nodes l rfl hwf hok
  have hhead : (l.pop_back_n nodeSize nodeAlign nodes.length).2.head = none := h3.1
  have htail : (l.pop_back_n nodeSize nodeAlign nodes.length).2.tail = none := by
    simpa using h3.2.1
  refine ⟨h1, h2, hhead, htail, ?_⟩
  simp [Iterator.op_eq, DoubleLinkedList.begin, DoubleLinkedList.end_, hhead]

theorem clear_pops_all_witness :
    (sampleList.pop_back_n 24 8 2).1 = Except.ok ()
    ∧ sampleList.clear 24 8 2 = some (sampleList.pop_back_n 24 8 2)
    ∧ sampleList.clear 24 8 1 = none
    ∧ (sampleList.pop_back_n 24 8 2).2.head = none :=
  ⟨by decide,
   (clear_pops_all 24 8 sampleList [(100, 1), (200, 2)] sampleList_wellFormed (by decide)).1 2
     (by decide),
   (clear_pops_all 24 8 sampleList [(100, 1), (200, 2)] sampleList_wellFormed
     (by decide)).2.1 1 (by decide),
   (clear_pops_all 24 8 sampleList [(100, 1), (200, 2)] sampleList_wellFormed
     (by decide)).2.2.1⟩

theorem do_allocate_reuse (blocks : List BlockInfo) (bytes al : Nat) (sysNew : Option Nat)
    (h : ∃ x ∈ blocks, fits bytes x) :
    ∃ p res, do_allocate blocks bytes al sysNew = (Except.ok p, res)
      ∧ res.length = blocks.length
      ∧ res.map BlockInfo.region = blocks.map BlockInfo.region := by
  obtain ⟨pre, b, post, hdec, hpre, hb⟩ := exists_first (fits bytes) blocks h
  refine ⟨b.ptr, pre ++ { b with is_free := false } :: post, ?_, ?_, ?_⟩
  · rw [hdec]
    simp only [do_allocate, allocScan_first bytes pre b post hpre hb]
  · rw [hdec]; simp
  · rw [hdec]; simp [BlockInfo.region]

theorem push_back_of_allocate {T : Type} (nodeSize nodeAlign : Nat) (l : DoubleLinkedList T)
    (v : T) (sysNew : Option Nat) (p : Nat) (res : List BlockInfo)
    (h : do_allocate l.resource nodeSize nodeAlign sysNew = (Except.ok p, res)) :
    (l.push_back nodeSize nodeAlign v sysNew).1 = Except.ok ()
    ∧ (l.push_back nodeSize nodeAlign v sysNew).2.resource = res := by
  cases ht : l.tail <;> simp [DoubleLinkedList.push_back, h, ht]

theorem pop_back_of_tail {T : Type} (nodeSize nodeAlign : Nat) (l : DoubleLinkedList T)
    (t : Nat) (ht : l.tail = some t) :
    (l.pop_back nodeSize nodeAlign).1 = (do_deallocate l.resource t nodeSize nodeAlign).1
    ∧ (l.pop_back nodeSize nodeAlign).2.resource
        = (do_deallocate l.resource t nodeSize nodeAlign).2 := by
  simp [DoubleLinkedList.pop_back, ht]

/-- C15 as stated fails: a list with nodes of 24 bytes pushes 1 and 2 on a fresh
resource and pops once, which returns normally and frees the record `(200, 24)`. The
next `push_back` on that resource comes from a list with nodes of 48 bytes: no free
record is large enough, so it acquires the new region 300 and the resource tracks three
records instead of two; and when the underlying system has nothing to give it throws
`std::bad_alloc`. -/
theorem append_of_larger_node_acquires :
    ((DoubleLinkedList.new [] (fun _ => none) : DoubleLinkedList Nat).push_back_all 24 8
        [(1, some 100), (2, some 200)]).1 = Except.ok ()
    ∧ ((DoubleLinkedList.new [] (fun _ => none) : DoubleLinkedList Nat).push_back_all 24 8
        [(1, some 100), (2, some 200)]).2.tail = some 200
    ∧ (((DoubleLinkedList.new [] (fun _ => none) : DoubleLinkedList Nat).push_back_all 24 8
        [(1, some 100), (2, some 200)]).2.pop_back 24 8).1 = Except.ok ()
    ∧ (((DoubleLinkedList.new [] (fun _ => none) : DoubleLinkedList Nat).push_back_all 24 8
        [(1, some 100), (2, some 200)]).2.pop_back 24 8).2.resource
        = [BlockInfo.mk 100 24 false, BlockInfo.mk 200 24 true]
    ∧ ((DoubleLinkedList.new [BlockInfo.mk 100 24 false, BlockInfo.mk 200 24 true]
        (fun _ => none) : DoubleLinkedList Nat).push_back 48 8 5 (some 300)).1 = Except.ok ()
    ∧ ((DoubleLinkedList.new [BlockInfo.mk 100 24 false, BlockInfo.mk 200 24 true]
        (fun _ => none) : DoubleLinkedList Nat).push_back 48 8 5 (some 300)).2.resource
        = [BlockInfo.mk 100 24 false, BlockInfo.mk 200 24 true, BlockInfo.mk 300 48 false]
    ∧ ((DoubleLinkedList.new [BlockInfo.mk 100 24 false, BlockInfo.mk 200 24 true]
        (fun _ => none) : DoubleLinkedList Nat).push_back 48 8 5 none).1
        = Except.error Error.bad_alloc := by
  decide

/-- C15, amended: after a `pop_back()` with node size `nodeSize` that returned normally
on a list with a tail node, the next `push_back` on that memory resource by a list whose
node size `nodeSize2` is at most `nodeSize` returns normally without a new region,
whatever the underlying system would answer: the record list keeps its length,
addresses and sizes. And on a fresh resource, the system handing out distinct addresses
`a`, `b`, `c`: `push_back` 1, 2, 3, `pop_back` twice, `push_back` 10, 20 (the system
having nothing to give) all succeed, iteration reads `[1, 10, 20]` and three records
are tracked. -/
theorem append_after_remove_reuses {T T2 : Type} (nodeSize nodeAlign : Nat) :
    (∀ (l : DoubleLinkedList T) (t : Nat), l.tail = some t →
        (l.pop_back nodeSize nodeAlign).1 = Except.ok () →
        ∀ (nodeSize2 nodeAlign2 : Nat) (l2 : DoubleLinkedList T2) (v : T2)
          (sysNew : Option Nat),
          nodeSize2 ≤ nodeSize →
          l2.resource = (l.pop_back nodeSize nodeAlign).2.resource →
          (l2.push_back nodeSize2 nodeAlign2 v sysNew).1 = Except.ok ()
          ∧ (l2.push_back nodeSize2 nodeAlign2 v sysNew).2.resource.length
              = l2.resource.length
          ∧ (l2.push_back nodeSize2 nodeAlign2 v sysNew).2.resource.map BlockInfo.region
              = l2.resource.map BlockInfo.region)
    ∧ (∀ a b c : Nat, a ≠ b → a ≠ c → b ≠ c →
        ((DoubleLinkedList.new [] (fun _ => none) : DoubleLinkedList Nat).push_back_all nodeSize
          nodeAlign [(1, some a), (2, some b), (3, some c)]).1 = Except.ok ()
        ∧ (((DoubleLinkedList.new [] (fun _ => none) : DoubleLinkedList Nat).push_back_all
          nodeSize nodeAlign [(1, some a), (2, some b), (3, some c)]).2.pop_back_n nodeSize
          nodeAlign 2).1 = Except.ok ()
        ∧ ((((DoubleLinkedList.new [] (fun _ => none) : DoubleLinkedList Nat).push_back_all
          nodeSize nodeAlign [(1, some a), (2, some b), (3, some c)]).2.pop_back_n nodeSize
          nodeAlign 2).2.push_back_all nodeSize nodeAlign [(10, none), (20, none)]).1
          = Except.ok ()
        ∧ yields
          ((((DoubleLinkedList.new [] (fun _ => none) : DoubleLinkedList Nat).push_back_all
            nodeSize nodeAlign [(1, some a), (2, some b), (3, some c)]).2.pop_back_n nodeSize
            nodeAlign 2).2.push_back_all nodeSize nodeAlign [(10, none), (20, none)]).2.memory
          ((((DoubleLinkedList.new [] (fun _ => none) : DoubleLinkedList Nat).push_back_all
            nodeSize nodeAlign [(1, some a), (2, some b), (3, some c)]).2.pop_back_n nodeSize
            nodeAlign 2).2.push_back_all nodeSize nodeAlign [(10, none), (20, none)]).2.begin
          [1, 10, 20]
        ∧ ((((DoubleLinkedList.new [] (fun _ => none) : DoubleLinkedList Nat).push_back_all
            nodeSize nodeAlign [(1, some a), (2, some b), (3, some c)]).2.pop_back_n nodeSize
            nodeAlign 2).2.push_back_all nodeSize nodeAlign
            [(10, none), (20, none)]).2.resource.length = 3) := by
  constructor
  · intro l t ht hok nodeSize2 nodeAlign2 l2 v sysNew hle hres
    obtain ⟨hp1, hp2⟩ := pop_back_of_tail nodeSize nodeAlign l t ht
    rw [hp1] at hok
    rw [hp2] at hres
    have hfound : ∃ x ∈ l.resource, x.ptr = t ∧ x.size = nodeSize := by
      by_contra hno
      rw [do_deallocate_not_found l.resource t nodeSize nodeAlign hno] at hok
      exact absurd hok (by simp)
    obtain ⟨pre, b, post, _, _, hb, hd⟩ :=
      do_deallocate_found l.resource t nodeSize nodeAlign hfound
    rw [hd] at hres
    have hfit : ∃ x ∈ l2.resource, fits nodeSize2 x := by
      refine ⟨{ b with is_free := true }, ?_, rfl, ?_⟩
      · rw [hres]; simp
      · exact Nat.le_trans hle (Nat.le_of_eq hb.2.symm)
    obtain ⟨p, res, ha, hlen, hreg⟩ :=
      do_allocate_reuse l2.resource nodeSize2 nodeAlign2 sysNew hfit
    obtain ⟨h1, h2⟩ := push_back_of_allocate nodeSize2 nodeAlign2 l2 v sysNew p res ha
    rw [h2]
    exact ⟨h1, hlen, hreg⟩
  · intro a b c hab hac hbc
    have hba : b ≠ a := fun h => hab h.symm
    have hca : c ≠ a := fun h => hac h.symm
    have hcb : c ≠ b := fun h => hbc h.symm
    simp [DoubleLinkedList.push_back_all, DoubleLinkedList.push_back,
      DoubleLinkedList.pop_back_n, DoubleLinkedList.pop_back, DoubleLinkedList.new,
      do_allocate, allocScan, do_deallocate, deallocScan, Heap.write, Heap.setNext,
      Heap.setPrev, Heap.getPrev, Heap.getNext, Heap.erase, yields, Iterator.advance,
      Iterator.deref, DoubleLinkedList.begin, hab, hac, hbc, hba, hca, hcb]

theorem append_after_remove_reuses_witness :
    sampleList.tail = some 200
    ∧ (sampleList.pop_back 24 8).1 = Except.ok ()
    ∧ 16 ≤ 24
    ∧ ((sampleList.pop_back 24 8).2.push_back 16 4 5 none).1 = Except.ok ()
    ∧ ((sampleList.pop_back 24 8).2.push_back 16 4 5 none).2.resource.length
        = (sampleList.pop_back 24 8).2.resource.length
    ∧ ((((DoubleLinkedList.new [] (fun _ => none) : DoubleLinkedList Nat).push_back_all
        24 8 [(1, some 100), (2, some 200), (3, some 300)]).2.pop_back_n 24
        8 2).2.push_back_all 24 8 [(10, none), (20, none)]).2.resource.length = 3 :=
  ⟨rfl, by decide, by decide,
   ((@append_after_remove_reuses Nat Nat 24 8).1 sampleList 200 rfl (by decide) 16 4
      (sampleList.pop_back 24 8).2 5 none (by decide) rfl).1,
   ((@append_after_remove_reuses Nat Nat 24 8).1 sampleList 200 rfl (by decide) 16 4
      (sampleList.pop_back 24 8).2 5 none (by decide) rfl).2.1,
   ((@append_after_remove_reuses Nat Nat 24 8).2 100 200 300 (by decide) (by decide)
      (by decide)).2.2.2.2⟩

theorem advance_tail {T : Type} (l : DoubleLinkedList T) (nodes : List (Nat × T)) (t : Nat)
    (hwf : WellFormed l nodes) (ht : l.tail = some t) :
    l.memory.getNext t = none := by
  have hne : nodes ≠ [] := by
    intro hn
    rw [hn] at hwf
    have := hwf.2.1
    rw [ht] at this
    simp at this
  obtain ⟨init, last, hn⟩ := exists_snoc nodes hne
  obtain ⟨p, v⟩ := last
  subst hn
  have hp : l.tail = some p := by
    rw [hwf.2.1, List.map_append, List.map_cons, List.map_nil, List.getLast?_concat]
  have htp : t = p := by
    rw [ht] at hp
    exact Option.some.inj hp
  subst htp
  have hnode := Chain.last_node l.memory t v init none l.head hwf.1
  simp [Heap.getNext, hnode]

/-- C16: `++` on an iterator whose `current` is null leaves it as it is, so it still
compares equal to `end()`; on a well-formed list, `++` on an iterator at the tail node
gives an iterator that compares equal to `end()`; and `operator==` is true exactly when
both iterators point at the same node or both at none, `operator!=` being its
negation. -/
theorem iterator_laws {T : Type} :
    (∀ (h : Heap T) (l : DoubleLinkedList T),
        Iterator.advance h l.end_ = l.end_ ∧ (Iterator.advance h l.end_).op_eq l.end_ = true)
    ∧ (∀ (l : DoubleLinkedList T) (nodes : List (Nat × T)) (t : Nat),
        WellFormed l nodes → l.tail = some t →
        (Iterator.advance l.memory { current := some t }).op_eq l.end_ = true)
    ∧ (∀ a b : Iterator, a.op_eq b = true ↔
        ((∃ p, a.current = some p ∧ b.current = some p)
          ∨ (a.current = none ∧ b.current = none)))
    ∧ (∀ a b : Iterator, a.op_ne b = !a.op_eq b) := by
  refine ⟨?_, ?_, ?_, ?_⟩
  · intro h l
    simp [Iterator.advance, DoubleLinkedList.end_, Iterator.op_eq]
  · intro l nodes t hwf ht
    simp [Iterator.advance, advance_tail l nodes t hwf ht, Iterator.op_eq,
      DoubleLinkedList.end_]
  · intro a b
    obtain ⟨ca⟩ := a
    obtain ⟨cb⟩ := b
    cases ca with
    | none => cases cb <;> simp [Iterator.op_eq]
    | some x =>
      cases cb with
      | none => simp [Iterator.op_eq]
      | some y =>
        simp only [Iterator.op_eq, beq_iff_eq, Option.some.injEq, exists_eq_left', false_and,
          or_false, reduceCtorEq]
        exact eq_comm
  · intro a b
    simp [Iterator.op_ne, Iterator.op_eq, bne]

theorem iterator_laws_witness :
    sampleList.tail = some 200
    ∧ (Iterator.advance sampleList.memory { current := some 200 }).op_eq sampleList.end_
        = true :=
  ⟨rfl, (iterator_laws).2.1 sampleList [(100, 1), (200, 2)] 200 sampleList_wellFormed rfl⟩

/-! ## Well-formedness as an invariant -/

theorem Chain.adjacent {T : Type} (h : Heap T) :
    ∀ (nodes : List (Nat × T)) (prev cur : Option Nat), Chain h prev cur nodes →
      ∀ i p q, (nodes.map Prod.fst)[i]? = some p → (nodes.map Prod.fst)[i + 1]? = some q →
        h.getNext p = some q ∧ h.getPrev q = some p := by
  intro nodes
  induction nodes with
  | nil => intro _ _ _ i p q hp _; simp at hp
  | cons nd rest ih =>
    obtain ⟨a, x⟩ := nd
    intro prev cur hc i p q hp hq
    obtain ⟨_, nx, ha, hrest⟩ := hc
    cases i with
    | zero =>
      have hpa : a = p := by simpa using hp
      subst hpa
      cases rest with
      | nil => simp at hq
      | cons nd2 rest2 =>
        obtain ⟨b, y⟩ := nd2
        have hqb : b = q := by simpa using hq
        subst hqb
        obtain ⟨hnx, nx2, hb, _⟩ := hrest
        subst hnx
        simp [Heap.getNext, Heap.getPrev, ha, hb]
    | succ i =>
      have hp2 : (rest.map Prod.fst)[i]? = some p := by simpa using hp
      have hq2 : (rest.map Prod.fst)[i + 1]? = some q := by simpa using hq
      exact ih (some a) nx hrest i p q hp2 hq2

theorem wellFormed_shape {T : Type} (l : DoubleLinkedList T) (nodes : List (Nat × T))
    (hwf : WellFormed l nodes) : ChainShape l (nodes.map Prod.fst) := by
  obtain ⟨hchain, htail, hnd, _, _⟩ := hwf
  have hhead : l.head = (nodes.map Prod.fst).head? := by
    cases nodes with
    | nil => exact hchain
    | cons nd rest => obtain ⟨q, x⟩ := nd; exact hchain.1
  refine ⟨?_, ?_, hhead, htail, hnd, ?_, ?_, ?_, ?_⟩
  · rw [hhead]; cases nodes <;> simp
  · rw [htail]; exact List.getLast?_eq_none_iff
  · exact Chain.node_of_mem l.memory nodes none l.head hchain
  · intro p hp
    cases nodes with
    | nil =>
      have hnone : l.head = none := hchain
      rw [hnone] at hp
      exact absurd hp (by simp)
    | cons nd rest =>
      obtain ⟨q, x⟩ := nd
      obtain ⟨hq, nx, hnode, _⟩ := hchain
      rw [hq] at hp
      have hqp : q = p := Option.some.inj hp
      subst hqp
      simp [Heap.getPrev, hnode]
  · intro t ht
    exact advance_tail l nodes t ⟨hchain, htail, hnd, ‹_›, ‹_›⟩ ht
  · exact Chain.adjacent l.memory nodes none l.head hchain

theorem do_allocate_sys_irrelevant (blocks : List BlockInfo) (bytes al : Nat)
    (s1 s2 : Option Nat) (h : ∃ x ∈ blocks, fits bytes x) :
    do_allocate blocks bytes al s1 = do_allocate blocks bytes al s2 := by
  obtain ⟨pre, b, post, hdec, hpre, hb⟩ := exists_first (fits bytes) blocks h
  rw [hdec]
  simp only [do_allocate, allocScan_first bytes pre b post hpre hb]

theorem push_back_preserves {T : Type} (nodeSize nodeAlign : Nat) (l : DoubleLinkedList T)
    (nodes : List (Nat × T)) (v : T) (sysNew : Option Nat) (hwf : WellFormed l nodes)
    (hsys : sysFresh l.resource (Op.allocate nodeSize nodeAlign sysNew)) :
    ∃ nodes2, WellFormed (l.push_back nodeSize nodeAlign v sysNew).2 nodes2 := by
  cases sysNew with
  | some a =>
    obtain ⟨p, l2, hpush, hwf2, _⟩ :=
      push_back_wellFormed nodeSize nodeAlign l nodes v a hwf hsys
    rw [hpush]
    exact ⟨_, hwf2⟩
  | none =>
    by_cases hfit : ∃ x ∈ l.resource, fits nodeSize x
    · obtain ⟨a, ha⟩ := Infinite.exists_not_mem_finset (l.resource.map BlockInfo.ptr).toFinset
      have ha2 : a ∉ l.resource.map BlockInfo.ptr := fun hmem => ha (List.mem_toFinset.mpr hmem)
      have heq : l.push_back nodeSize nodeAlign v none
          = l.push_back nodeSize nodeAlign v (some a) := by
        simp only [DoubleLinkedList.push_back,
          do_allocate_sys_irrelevant l.resource nodeSize nodeAlign none (some a) hfit]
      obtain ⟨p, l2, hpush, hwf2, _⟩ :=
        push_back_wellFormed nodeSize nodeAlign l nodes v a hwf ha2
      rw [heq, hpush]
      exact ⟨_, hwf2⟩
    · have hno : ∀ x ∈ l.resource, ¬ fits nodeSize x := fun x hx hf => hfit ⟨x, hx, hf⟩
      have hpush : l.push_back nodeSize nodeAlign v none
          = (Except.error Error.bad_alloc, l) := by
        simp only [DoubleLinkedList.push_back, do_allocate,
          allocScan_none nodeSize l.resource hno]
      rw [hpush]
      exact ⟨nodes, hwf⟩

theorem pop_back_preserves {T : Type} (nodeSize nodeAlign : Nat) (l : DoubleLinkedList T)
    (nodes : List (Nat × T)) (hwf : WellFormed l nodes) :
    WellFormed (l.pop_back nodeSize nodeAlign).2 nodes.dropLast := by
  by_cases hne : nodes = []
  · subst hne
    have htl : l.tail = none := by simpa using hwf.2.1
    have hpop : l.pop_back nodeSize nodeAlign = (Except.ok (), l) := by
      simp only [DoubleLinkedList.pop_back, htl]
    rw [hpop]
    exact hwf
  · obtain ⟨init, last, hn⟩ := exists_snoc nodes hne
    obtain ⟨p, v⟩ := last
    subst hn
    obtain ⟨l2, hpop, hwf2, _, _⟩ := pop_back_wellFormed nodeSize nodeAlign l init p v hwf
    rw [hpop]
    simpa using hwf2

theorem clear_head_none {T : Type} (nodeSize nodeAlign fuel : Nat) (l : DoubleLinkedList T)
    (hh : l.head = none) : l.clear nodeSize nodeAlign fuel = some (Except.ok (), l) := by
  cases fuel <;> simp only [DoubleLinkedList.clear, hh]

theorem clear_zero_some {T : Type} (nodeSize nodeAlign q : Nat) (l : DoubleLinkedList T)
    (hh : l.head = some q) : l.clear nodeSize nodeAlign 0 = none := by
  simp only [DoubleLinkedList.clear, hh]

theorem clear_succ_ok {T : Type} (nodeSize nodeAlign fuel q : Nat) (l l1 : DoubleLinkedList T)
    (hh : l.head = some q) (hp : l.pop_back nodeSize nodeAlign = (Except.ok (), l1)) :
    l.clear nodeSize nodeAlign (fuel + 1) = l1.clear nodeSize nodeAlign fuel := by
  simp only [DoubleLinkedList.clear, hh, hp]

theorem clear_succ_error {T : Type} (nodeSize nodeAlign fuel q : Nat)
    (l l1 : DoubleLinkedList T) (e : Error)
    (hh : l.head = some q) (hp : l.pop_back nodeSize nodeAlign = (Except.error e, l1)) :
    l.clear nodeSize nodeAlign (fuel + 1) = some (Except.error e, l1) := by
  simp only [DoubleLinkedList.clear, hh, hp]

theorem clear_preserves {T : Type} (nodeSize nodeAlign : Nat) :
    ∀ (fuel : Nat) (l : DoubleLinkedList T) (nodes : List (Nat × T)),
      WellFormed l nodes →
      (nodes.length ≤ fuel → ∃ res, l.clear nodeSize nodeAlign fuel = some res)
      ∧ ∀ res, l.clear nodeSize nodeAlign fuel = some res → ∃ nodes2, WellFormed res.2 nodes2 := by
  intro fuel
  induction fuel with
  | zero =>
    intro l nodes hwf
    cases hh : l.head with
    | none =>
      rw [clear_head_none nodeSize nodeAlign 0 l hh]
      refine ⟨fun _ => ⟨_, rfl⟩, ?_⟩
      intro res hres
      rw [← Option.some.inj hres]
      exact ⟨nodes, hwf⟩
    | some q =>
      rw [clear_zero_some nodeSize nodeAlign q l hh]
      refine ⟨?_, ?_⟩
      · intro hlen
        have hn : nodes = [] := List.length_eq_zero.mp (Nat.le_zero.mp hlen)
        subst hn
        have hnone : l.head = none := hwf.1
        rw [hnone] at hh
        exact absurd hh (by simp)
      · intro res hres
        exact absurd hres (by simp)
  | succ fuel ih =>
    intro l nodes hwf
    cases hh : l.head with
    | none =>
      rw [clear_head_none nodeSize nodeAlign (fuel + 1) l hh]
      refine ⟨fun _ => ⟨_, rfl⟩, ?_⟩
      intro res hres
      rw [← Option.some.inj hres]
      exact ⟨nodes, hwf⟩
    | some q =>
      have hwf1 := pop_back_preserves nodeSize nodeAlign l nodes hwf
      obtain ⟨ih1, ih2⟩ := ih (l.pop_back nodeSize nodeAlign).2 nodes.dropLast hwf1
      cases hp : l.pop_back nodeSize nodeAlign with
      | mk r l1 =>
        rw [hp] at hwf1 ih1 ih2
        cases r with
        | error e =>
          rw [clear_succ_error nodeSize nodeAlign fuel q l l1 e hh hp]
          refine ⟨fun _ => ⟨_, rfl⟩, ?_⟩
          intro res hres
          rw [← Option.some.inj hres]
          exact ⟨_, hwf1⟩
        | ok u =>
          rw [clear_succ_ok nodeSize nodeAlign fuel q l l1 hh hp]
          refine ⟨?_, ih2⟩
          intro hlen
          have hlen2 : nodes.dropLast.length ≤ fuel := by
            rw [List.length_dropLast]; omega
          exact ih1 hlen2

/-- C17: the list is well formed when constructed (on a memory resource whose records
have distinct addresses) and well-formedness is kept by every `push_back` (returning or
throwing `std::bad_alloc`, the underlying system not answering with an address the
resource tracks), every `pop_back` (returning or throwing) and every `clear`, which ends
within as many iterations as there are nodes. A well-formed list has the chain shape:
`head` and `tail` null together exactly when there is no node, `head->prev` and
`tail->next` null, the `next` links from `head` visiting every node once and ending at
`tail`, and neighbours pointing at each other. Well-formedness here also says that the
nodes are in-use blocks of the resource, which is what makes it inductive. -/
theorem chain_wellFormed_invariant {T : Type} (nodeSize nodeAlign : Nat) :
    (∀ (resource : List BlockInfo) (memory : Heap T),
        (resource.map BlockInfo.ptr).Nodup →
        WellFormed (DoubleLinkedList.new resource memory) [])
    ∧ (∀ (l : DoubleLinkedList T) (nodes : List (Nat × T)) (v : T) (sysNew : Option Nat),
        WellFormed l nodes → sysFresh l.resource (Op.allocate nodeSize nodeAlign sysNew) →
        ∃ nodes2, WellFormed (l.push_back nodeSize nodeAlign v sysNew).2 nodes2)
    ∧ (∀ (l : DoubleLinkedList T) (nodes : List (Nat × T)),
        WellFormed l nodes → WellFormed (l.pop_back nodeSize nodeAlign).2 nodes.dropLast)
    ∧ (∀ (l : DoubleLinkedList T) (nodes : List (Nat × T)),
        WellFormed l nodes →
        (∃ res, l.clear nodeSize nodeAlign nodes.length = some res)
        ∧ ∀ fuel res, l.clear nodeSize nodeAlign fuel = some res →
            ∃ nodes2, WellFormed res.2 nodes2)
    ∧ (∀ (l : DoubleLinkedList T) (nodes : List (Nat × T)),
        WellFormed l nodes → ChainShape l (nodes.map Prod.fst)) := by
  refine ⟨?_, ?_, ?_, ?_, ?_⟩
  · intro resource memory hnd
    exact wellFormed_new _ rfl rfl hnd
  · intro l nodes v sysNew hwf hsys
    exact push_back_preserves nodeSize nodeAlign l nodes v sysNew hwf hsys
  · intro l nodes hwf
    exact pop_back_preserves nodeSize nodeAlign l nodes hwf
  · intro l nodes hwf
    refine ⟨(clear_preserves nodeSize nodeAlign nodes.length l nodes hwf).1 (Nat.le_refl _), ?_⟩
    intro fuel res hres
    exact (clear_preserves nodeSize nodeAlign fuel l nodes hwf).2 res hres
  · intro l nodes hwf
    exact wellFormed_shape l nodes hwf

theorem chain_wellFormed_invariant_witness :
    ChainShape sampleList ([(100, 1), (200, 2)].map Prod.fst)
    ∧ WellFormed (sampleList.pop_back 24 8).2 [(100, 1), (200, 2)].dropLast :=
  ⟨(chain_wellFormed_invariant 24 8).2.2.2.2 sampleList [(100, 1), (200, 2)]
      sampleList_wellFormed,
   (chain_wellFormed_invariant 24 8).2.2.1 sampleList [(100, 1), (200, 2)]
      sampleList_wellFormed⟩

/-! ## Reachable states of the allocator -/

theorem map_region_ptr (blocks : List BlockInfo) :
    (blocks.map BlockInfo.region).map Prod.fst = blocks.map BlockInfo.ptr := by
  simp [BlockInfo.region, List.map_map, Function.comp_def]

theorem do_allocate_regions (blocks : List BlockInfo) (bytes al : Nat) (sysNew : Option Nat) :
    (do_allocate blocks bytes al sysNew).2.map BlockInfo.region = blocks.map BlockInfo.region
    ∨ ∃ a, sysNew = some a ∧ (∀ x ∈ blocks, ¬ fits bytes x)
        ∧ do_allocate blocks bytes al sysNew
            = (Except.ok a, blocks ++ [{ ptr := a, size := bytes, is_free := false }]) := by
  by_cases hfit : ∃ x ∈ blocks, fits bytes x
  · obtain ⟨p, res, hres, _, hreg⟩ := do_allocate_reuse blocks bytes al sysNew hfit
    rw [hres]
    exact Or.inl hreg
  · have hno : ∀ x ∈ blocks, ¬ fits bytes x := fun x hx hf => hfit ⟨x, hx, hf⟩
    cases sysNew with
    | none =>
      left
      simp only [do_allocate, allocScan_none bytes blocks hno]
    | some a =>
      right
      refine ⟨a, rfl, hno, ?_⟩
      simp only [do_allocate, allocScan_none bytes blocks hno]

theorem do_deallocate_regions (blocks : List BlockInfo) (p bytes al : Nat) :
    (do_deallocate blocks p bytes al).2.map BlockInfo.region = blocks.map BlockInfo.region := by
  by_cases h : ∃ x ∈ blocks, x.ptr = p ∧ x.size = bytes
  · obtain ⟨pre, b, post, hdec, _, _, hres⟩ := do_deallocate_found blocks p bytes al h
    rw [hres, hdec]
    simp [BlockInfo.region]
  · rw [do_deallocate_not_found blocks p bytes al h]

theorem step_nodup (blocks : List BlockInfo) (op : Op)
    (hnd : (blocks.map BlockInfo.ptr).Nodup) (hsys : sysFresh blocks op) :
    ((step blocks op).map BlockInfo.ptr).Nodup := by
  cases op with
  | allocate bytes al sysNew =>
    rcases do_allocate_regions blocks bytes al sysNew with hreg | ⟨a, hs, _, hres⟩
    · have := congrArg (List.map Prod.fst) hreg
      rw [map_region_ptr, map_region_ptr] at this
      simp only [step]
      rw [this]
      exact hnd
    · subst hs
      have ha : a ∉ blocks.map BlockInfo.ptr := hsys
      simp only [step, hres]
      rw [List.map_append, List.map_cons, List.map_nil]
      refine List.Nodup.append hnd (List.nodup_singleton a) ?_
      intro x hx hx2
      rw [List.mem_singleton] at hx2
      have hx3 : x = a := hx2
      exact ha (hx3 ▸ hx)
  | deallocate p bytes al =>
    have := congrArg (List.map Prod.fst) (do_deallocate_regions blocks p bytes al)
    rw [map_region_ptr, map_region_ptr] at this
    simp only [step]
    rw [this]
    exact hnd

theorem run_nodup : ∀ (ops : List Op) (blocks : List BlockInfo),
    (blocks.map BlockInfo.ptr).Nodup → FreshRun blocks ops →
    ((run blocks ops).map BlockInfo.ptr).Nodup := by
  intro ops
  induction ops with
  | nil => intro blocks hnd _; exact hnd
  | cons op rest ih =>
    intro blocks hnd hfresh
    exact ih (step blocks op) (step_nodup blocks op hnd hfresh.1) hfresh.2

theorem flagChanges_append_left (pre x y : List BlockInfo) :
    flagChanges (pre ++ x) (pre ++ y) = flagChanges x y := by
  induction pre with
  | nil => rfl
  | cons a rest ih =>
    simp only [flagChanges] at ih ⊢
    simp [List.zip_cons_cons, List.filter_cons, ih]

theorem flagChanges_self (l : List BlockInfo) : flagChanges l l = 0 := by
  have := flagChanges_append_left l [] []
  simpa [flagChanges] using this

theorem flagChanges_self_append (l extra : List BlockInfo) : flagChanges l (l ++ extra) = 0 := by
  have := flagChanges_append_left l [] extra
  simpa [flagChanges] using this

theorem flagChanges_one (pre post : List BlockInfo) (b c : BlockInfo) :
    flagChanges (pre ++ b :: post) (pre ++ c :: post) ≤ 1 := by
  rw [flagChanges_append_left]
  have hpost := flagChanges_self post
  simp only [flagChanges] at hpost ⊢
  rw [List.zip_cons_cons, List.filter_cons]
  split
  · rw [List.length_cons, hpost]
  · rw [hpost]; exact Nat.zero_le 1

/-- C18: starting from a fresh allocator and making any sequence of `allocate` and
`deallocate` calls, returning or throwing, with the underlying system never answering
with an address the allocator still holds, the addresses of the tracked records are
pairwise distinct: records at two different positions never have the same address. -/
theorem address_uniqueness_invariant (ops : List Op) (h : FreshRun [] ops) :
    ((run [] ops).map BlockInfo.ptr).Nodup
    ∧ ∀ (i j : Nat) (b1 b2 : BlockInfo),
        (run [] ops)[i]? = some b1 → (run [] ops)[j]? = some b2 →
        b1.ptr = b2.ptr → i = j := by
  have hnd := run_nodup ops [] (by simp) h
  refine ⟨hnd, ?_⟩
  intro i j b1 b2 h1 h2 hp
  have hne := List.nodup_iff_getElem?_ne_getElem?.mp hnd
  have e1 : ((run [] ops).map BlockInfo.ptr)[i]? = some b1.ptr := by
    rw [List.getElem?_map, h1]; rfl
  have e2 : ((run [] ops).map BlockInfo.ptr)[j]? = some b1.ptr := by
    rw [List.getElem?_map, h2, hp]; rfl
  have hi : i < ((run [] ops).map BlockInfo.ptr).length := by
    by_contra hlt
    rw [List.getElem?_eq_none (Nat.le_of_not_lt hlt)] at e1
    exact absurd e1 (by simp)
  have hj : j < ((run [] ops).map BlockInfo.ptr).length := by
    by_contra hlt
    rw [List.getElem?_eq_none (Nat.le_of_not_lt hlt)] at e2
    exact absurd e2 (by simp)
  rcases Nat.lt_trichotomy i j with hlt | heq | hgt
  · exact absurd (e1.trans e2.symm) (hne i j hlt hj)
  · exact heq
  · exact absurd (e2.trans e1.symm) (hne j i hgt hi)

theorem address_uniqueness_invariant_witness :
    FreshRun [] [Op.allocate 32 8 (some 100), Op.allocate 64 8 (some 200),
      Op.deallocate 100 32 8, Op.deallocate 7 32 8, Op.allocate 16 8 (some 300),
      Op.allocate 128 8 (some 300)]
    ∧ ((run [] [Op.allocate 32 8 (some 100), Op.allocate 64 8 (some 200),
      Op.deallocate 100 32 8, Op.deallocate 7 32 8, Op.allocate 16 8 (some 300),
      Op.allocate 128 8 (some 300)]).map BlockInfo.ptr).Nodup :=
  ⟨by decide,
   (address_uniqueness_invariant [Op.allocate 32 8 (some 100), Op.allocate 64 8 (some 200),
      Op.deallocate 100 32 8, Op.deallocate 7 32 8, Op.allocate 16 8 (some 300),
      Op.allocate 128 8 (some 300)] (by decide)).1⟩

/-- C19: on any record list, `do_allocate` (returning or throwing) leaves the addresses
and sizes of the old records in place and in order, followed by at most one new record,
and `do_deallocate` (returning or throwing) leaves exactly the old addresses and sizes,
so the same number of records; either call changes the free flag of at most one old
record. -/
theorem records_only_appended_and_toggled (blocks : List BlockInfo) :
    (∀ bytes al sysNew,
        (∃ extra, (do_allocate blocks bytes al sysNew).2.map BlockInfo.region
            = blocks.map BlockInfo.region ++ extra ∧ extra.length ≤ 1)
        ∧ blocks.length ≤ (do_allocate blocks bytes al sysNew).2.length
        ∧ (do_allocate blocks bytes al sysNew).2.length ≤ blocks.length + 1
        ∧ flagChanges blocks (do_allocate blocks bytes al sysNew).2 ≤ 1)
    ∧ (∀ p bytes al,
        (do_deallocate blocks p bytes al).2.map BlockInfo.region = blocks.map BlockInfo.region
        ∧ (do_deallocate blocks p bytes al).2.length = blocks.length
        ∧ flagChanges blocks (do_deallocate blocks p bytes al).2 ≤ 1) := by
  constructor
  · intro bytes al sysNew
    by_cases hfit : ∃ x ∈ blocks, fits bytes x
    · obtain ⟨pre, b, post, hdec, hpre, hb⟩ := exists_first (fits bytes) blocks hfit
      have hres : do_allocate blocks bytes al sysNew
          = (Except.ok b.ptr, pre ++ { b with is_free := false } :: post) := by
        rw [hdec]
        simp only [do_allocate, allocScan_first bytes pre b post hpre hb]
      rw [hres]
      refine ⟨⟨[], ?_, by simp⟩, ?_, ?_, ?_⟩
      · rw [hdec]; simp [BlockInfo.region]
      · rw [hdec]; simp
      · rw [hdec]; simp
      · rw [hdec]; exact flagChanges_one pre post _ _
    · have hno : ∀ x ∈ blocks, ¬ fits bytes x := fun x hx hf => hfit ⟨x, hx, hf⟩
      cases sysNew with
      | none =>
        have hres : do_allocate blocks bytes al none = (Except.error Error.bad_alloc, blocks) := by
          simp only [do_allocate, allocScan_none bytes blocks hno]
        rw [hres]
        exact ⟨⟨[], by simp, by simp⟩, Nat.le_refl _, Nat.le_succ _,
          by rw [flagChanges_self]; exact Nat.zero_le 1⟩
      | some a =>
        have hres : do_allocate blocks bytes al (some a)
            = (Except.ok a, blocks ++ [{ ptr := a, size := bytes, is_free := false }]) := by
          simp only [do_allocate, allocScan_none bytes blocks hno]
        rw [hres]
        refine ⟨⟨[(a, bytes)], by simp [BlockInfo.region], by simp⟩, by simp, by simp, ?_⟩
        show flagChanges blocks (blocks ++ _) ≤ 1
        rw [flagChanges_self_append]; exact Nat.zero_le 1
  · intro p bytes al
    by_cases h : ∃ x ∈ blocks, x.ptr = p ∧ x.size = bytes
    · obtain ⟨pre, b, post, hdec, _, _, hres⟩ := do_deallocate_found blocks p bytes al h
      rw [hres]
      refine ⟨?_, ?_, ?_⟩
      · rw [hdec]; simp [BlockInfo.region]
      · rw [hdec]; simp
      · rw [hdec]; exact flagChanges_one pre post _ _
    · rw [do_deallocate_not_found blocks p bytes al h]
      exact ⟨rfl, rfl, by rw [flagChanges_self]; exact Nat.zero_le 1⟩

/-- C20: in a state reached from a fresh allocator, the underlying system never
answering with an address the allocator still holds, let `do_allocate` return `p`. Then
no record with address `p` was in use before the call; `p` is the address of a record
that was free, or it is the address the system just handed out and was not tracked;
and after the call `p` is tracked, and its record is in use with size at least the
requested `bytes`. -/
theorem no_live_block_handed_out (ops : List Op) (bytes al : Nat) (sysNew : Option Nat)
    (p : Nat) (hrun : FreshRun [] ops)
    (hsys : sysFresh (run [] ops) (Op.allocate bytes al sysNew))
    (hret : (do_allocate (run [] ops) bytes al sysNew).1 = Except.ok p) :
    (∀ b ∈ run [] ops, b.ptr = p → b.is_free = true)
    ∧ ((∃ b ∈ run [] ops, b.ptr = p ∧ b.is_free = true)
        ∨ (sysNew = some p ∧ p ∉ (run [] ops).map BlockInfo.ptr))
    ∧ (∃ b ∈ (do_allocate (run [] ops) bytes al sysNew).2, b.ptr = p)
    ∧ (∀ b ∈ (do_allocate (run [] ops) bytes al sysNew).2, b.ptr = p →
        b.is_free = false ∧ bytes ≤ b.size) := by
  have hnd := run_nodup ops [] (by simp) hrun
  generalize run [] ops = st at hnd hsys hret ⊢
  by_cases hfit : ∃ x ∈ st, fits bytes x
  · obtain ⟨pre, b, post, hdec, hpre, hb⟩ := exists_first (fits bytes) st hfit
    have hres : do_allocate st bytes al sysNew
        = (Except.ok b.ptr, pre ++ { b with is_free := false } :: post) := by
      rw [hdec]
      simp only [do_allocate, allocScan_first bytes pre b post hpre hb]
    rw [hres] at hret ⊢
    have hpb : b.ptr = p := by
      have : (Except.ok b.ptr : Except Error Nat) = Except.ok p := hret
      exact Except.ok.inj this
    have hbmem : b ∈ st := by rw [hdec]; simp
    have hinj := List.inj_on_of_nodup_map hnd
    have hnd2 : ((pre ++ { b with is_free := false } :: post).map BlockInfo.ptr).Nodup := by
      have : (pre ++ { b with is_free := false } :: post).map BlockInfo.ptr
          = st.map BlockInfo.ptr := by rw [hdec]; simp
      rw [this]; exact hnd
    have hinj2 := List.inj_on_of_nodup_map hnd2
    have hb2mem : ({ b with is_free := false } : BlockInfo)
        ∈ pre ++ { b with is_free := false } :: post := by simp
    refine ⟨?_, Or.inl ⟨b, hbmem, hpb, hb.1⟩, ⟨_, hb2mem, hpb⟩, ?_⟩
    · intro c hc hcp
      have hcb : c = b := hinj hc hbmem (hcp.trans hpb.symm)
      rw [hcb]; exact hb.1
    · intro c hc hcp
      have hcb : c = { b with is_free := false } := hinj2 hc hb2mem (hcp.trans hpb.symm)
      rw [hcb]
      exact ⟨rfl, hb.2⟩
  · have hno : ∀ x ∈ st, ¬ fits bytes x := fun x hx hf => hfit ⟨x, hx, hf⟩
    cases sysNew with
    | none =>
      have hres : do_allocate st bytes al none = (Except.error Error.bad_alloc, st) := by
        simp only [do_allocate, allocScan_none bytes st hno]
      rw [hres] at hret
      exact absurd hret (by simp)
    | some a =>
      have hres : do_allocate st bytes al (some a)
          = (Except.ok a, st ++ [{ ptr := a, size := bytes, is_free := false }]) := by
        simp only [do_allocate, allocScan_none bytes st hno]
      rw [hres] at hret ⊢
      have hap : a = p := by
        have : (Except.ok a : Except Error Nat) = Except.ok p := hret
        exact Except.ok.inj this
      subst hap
      have ha : a ∉ st.map BlockInfo.ptr := hsys
      refine ⟨?_, Or.inr ⟨rfl, ha⟩,
        ⟨{ ptr := a, size := bytes, is_free := false }, by simp, rfl⟩, ?_⟩
      · intro c hc hcp
        exact absurd (List.mem_map.mpr ⟨c, hc, hcp⟩) ha
      · intro c hc hcp
        rcases List.mem_append.mp hc with hc | hc
        · exact absurd (List.mem_map.mpr ⟨c, hc, hcp⟩) ha
        · rw [List.mem_singleton] at hc
          rw [hc]
          exact ⟨rfl, Nat.le_refl _⟩

theorem no_live_block_handed_out_witness :
    FreshRun [] [Op.allocate 64 8 (some 100), Op.allocate 32 8 (some 200),
      Op.deallocate 100 64 8]
    ∧ (do_allocate (run [] [Op.allocate 64 8 (some 100), Op.allocate 32 8 (some 200),
        Op.deallocate 100 64 8]) 48 8 (some 300)).1 = Except.ok 100
    ∧ (∀ b ∈ run [] [Op.allocate 64 8 (some 100), Op.allocate 32 8 (some 200),
        Op.deallocate 100 64 8], b.ptr = 100 → b.is_free = true)
    ∧ (∀ b ∈ (do_allocate (run [] [Op.allocate 64 8 (some 100), Op.allocate 32 8 (some 200),
        Op.deallocate 100 64 8]) 48 8 (some 300)).2, b.ptr = 100 →
        b.is_free = false ∧ 48 ≤ b.size) :=
  ⟨by decide, by decide,
   (no_live_block_handed_out [Op.allocate 64 8 (some 100), Op.allocate 32 8 (some 200),
      Op.deallocate 100 64 8] 48 8 (some 300) 100 (by decide) (by decide) (by decide)).1,
   (no_live_block_handed_out [Op.allocate 64 8 (some 100), Op.allocate 32 8 (some 200),
      Op.deallocate 100 64 8] 48 8 (some 300) 100 (by decide) (by decide)
      (by decide)).2.2.2⟩

end OopLab5
